import Mathlib

/-!
Verification of the driver-agnostic PostgreSQL access layer
(`@graphile/pg-adapters` and the `@dataplan/pg` subscriber).

The TypeScript sources are shallowly embedded: each adapter operation is
translated into a pure Lean function from its inputs (and oracles standing
for the database driver) to the list of SQL-level actions it performs plus
its result.  Callbacks are abstracted by their outcome (`Except ε α`);
driver calls are abstracted by explicit oracle parameters.
-/

set_option autoImplicit false

universe u v

namespace PgAdapters

/-- An observable action performed by an adapter against the driver. -/
inductive PgAction where
  /-- A plain SQL statement sent as query text with no bound values. -/
  | stmt (text : String)
  /-- A parameterized query whose single bound value is the JSON
  serialization of the given key/value pair array
  (`JSON.stringify(entries)` in the source). -/
  | queryJson (text : String) (entries : List (String × String))
  /-- A parameterized query with plain string parameters
  (e.g. the `current_setting($1, true)` probe). -/
  | queryParam (text : String) (params : List String)
  /-- Invocation of the driver's native transaction primitive
  (`sql.begin` for postgres.js, `pglite.transaction` for PGlite). -/
  | nativeTx
  /-- Entry into PGlite's `runExclusive` mutex. -/
  | runExclusive
  deriving DecidableEq, Repr

/-! ### Savepoint naming (shared by both explicit-SQL backends)

source: `savepoint tx${txLevel === 0 ? "" : txLevel}` -/

/-- The savepoint suffix used at pre-call transaction level `lvl`:
empty at level 0 (name `tx`), the decimal level otherwise (`tx{N}`). -/
def savepointSuffix (lvl : Nat) : String :=
  if lvl == 0 then "" else toString lvl

/-- The savepoint name minted at pre-call transaction level `lvl`. -/
def savepointName (lvl : Nat) : String :=
  "tx" ++ savepointSuffix lvl

/-! ### node-postgres `withTransaction`

Embedding of `createNodePostgresPgClient(...).withTransaction` (part_005
lines 100–141).  The callback is abstracted by the outcome it produces when
run with the freshly created client; the client it receives carries
transaction level `txLevel + 1`.  `rollbackErr` is an oracle: `some e2`
means the rollback statement itself throws `e2` (the source catches this
and logs, so the original error still propagates). -/

/-- Result of running a `withTransaction` model: the SQL trace, the
transaction level of the client handed to the callback, and the outcome
returned to the caller. -/
structure TxRun (ε : Type u) (α : Type v) where
  trace : List PgAction
  cbLevel : Nat
  result : Except ε α
  deriving Repr

/-- node-postgres `withTransaction` at pre-call level `lvl` with
pre-existing-transaction flag `pre`. -/
def npWithTransaction {ε : Type u} {α : Type v} (lvl : Nat) (pre : Bool)
    (cb : Nat → Except ε α) (rollbackErr : Option ε) : TxRun ε α :=
  let top : Bool := lvl == 0 && !pre
  let enter : PgAction :=
    .stmt (if top then "begin" else "savepoint " ++ savepointName lvl)
  match cb (lvl + 1) with
  | .ok a =>
      let exit : PgAction :=
        .stmt (if top then "commit" else "release savepoint " ++ savepointName lvl)
      ⟨[enter, exit], lvl + 1, .ok a⟩
  | .error e =>
      -- the rollback is attempted; if it throws, the error is caught and
      -- logged (`console.error`) and the original `e` is re-thrown
      let exit : PgAction :=
        .stmt (if top then "rollback" else "rollback to savepoint " ++ savepointName lvl)
      match rollbackErr with
      | none => ⟨[enter, exit], lvl + 1, .error e⟩
      | some _ => ⟨[enter, exit], lvl + 1, .error e⟩

/-! ### PGlite `withTransaction`

Embedding of `createPGlitePgClient(...).withTransaction` (part_004 lines
106–191).  At level 0 with no pre-existing transaction it delegates to
`pglite.transaction` (the driver's native primitive, which holds an
internal mutex); otherwise it issues savepoint SQL via `pglite.exec`. -/

/-- PGlite `withTransaction` at pre-call level `lvl` with
pre-existing-transaction flag `pre`. -/
def pgliteWithTransaction {ε : Type u} {α : Type v} (lvl : Nat) (pre : Bool)
    (cb : Nat → Except ε α) (rollbackErr : Option ε) : TxRun ε α :=
  if lvl == 0 && !pre then
    -- native transaction primitive; the inner client is at level 1
    ⟨[.nativeTx], 1, cb 1⟩
  else
    let name := savepointName lvl
    match cb (lvl + 1) with
    | .ok a =>
        ⟨[.stmt ("SAVEPOINT " ++ name), .stmt ("RELEASE SAVEPOINT " ++ name)],
          lvl + 1, .ok a⟩
    | .error e =>
        -- `ROLLBACK TO SAVEPOINT` failures are caught and logged
        match rollbackErr with
        | none =>
            ⟨[.stmt ("SAVEPOINT " ++ name), .stmt ("ROLLBACK TO SAVEPOINT " ++ name)],
              lvl + 1, .error e⟩
        | some _ =>
            ⟨[.stmt ("SAVEPOINT " ++ name), .stmt ("ROLLBACK TO SAVEPOINT " ++ name)],
              lvl + 1, .error e⟩

/-! ### Session settings

A `pgSettings` map is embedded as its `Object.entries` list in insertion
order; a value of `none` stands for `null`/`undefined` (values are already
coerced to strings, matching `"" + value` / `String(value)`). -/

/-- The non-null `[key, value]` entries of a settings map, in order
(the `if (value == null) continue` filter of all three backends). -/
def settingsEntries (s : List (String × Option String)) : List (String × String) :=
  s.filterMap fun kv =>
    match kv.2 with
    | none => none
    | some v => some (kv.1, v)

/-- The settings-application query text of the node-postgres backend
(part_005 line 238). -/
def npSetConfigText : String :=
  "select set_config(el->>0, el->>1, true) from json_array_elements($1::json) el"

/-- The settings-application query text of the postgres.js backend
(postgres.ts line 233). -/
def pgjsSetConfigText : String :=
  "SELECT set_config(el->>0, el->>1, true) FROM json_array_elements($1::json) el"

/-- The settings-application query text of the PGlite backend
(part_004 lines 277 and 299). -/
def pgliteSetConfigText : String :=
  "SELECT set_config(el->>0, el->>1, false) FROM json_array_elements($1::json) el"

/-- The PGlite original-value probe text (part_004 line 261). -/
def pgliteProbeText : String :=
  "SELECT current_setting($1, true) as value"

/-! ### node-postgres `withPgClient` envelope

Embedding of `makeNodePostgresWithPgClient_inner` (part_005 lines
204–273).  The callback is abstracted by its outcome; it receives a client
at level 1 when settings apply, level 0 otherwise.  `rollbackErr` models
the `rollback` / `rollback to savepoint tx` query throwing: unlike
`withTransaction`, the source does **not** wrap this query in a
`try`/`catch`, so its error replaces the callback's. -/

/-- Result of a `withPgClient` envelope run. -/
structure EnvRun (ε : Type u) (α : Type v) where
  trace : List PgAction
  cbLevel : Nat
  result : Except ε α
  deriving Repr

/-- node-postgres `withPgClient` envelope with pre-existing-transaction
flag `pre`. -/
def npWithPgClient {ε : Type u} {α : Type v}
    (pgSettings : Option (List (String × Option String))) (pre : Bool)
    (cb : Nat → Except ε α) (rollbackErr : Option ε) : EnvRun ε α :=
  let entries :=
    match pgSettings with
    | none => []
    | some s => settingsEntries s
  if entries.length > 0 then
    let enter : PgAction := .stmt (if pre then "savepoint tx" else "begin")
    let sc : PgAction := .queryJson npSetConfigText entries
    match cb 1 with
    | .ok a =>
        ⟨[enter, sc, .stmt (if pre then "release savepoint tx" else "commit")],
          1, .ok a⟩
    | .error e =>
        let rb : PgAction :=
          .stmt (if pre then "rollback to savepoint tx" else "rollback")
        match rollbackErr with
        | none => ⟨[enter, sc, rb], 1, .error e⟩
        | some e2 => ⟨[enter, sc, rb], 1, .error e2⟩
  else
    ⟨[], 0, cb 0⟩

/-! ### postgres.js `withPgClient` envelope

Embedding of `createPostgresJsAdapter(...).withPgClient` (postgres.ts
lines 207–257).  Note the outer test is on the number of *keys*
(`Object.keys(pgSettings).length > 0`), so a map of all-null values still
enters `sql.begin`, while the inner test skips the `set_config` query when
no non-null entries remain. -/

/-- postgres.js `withPgClient` envelope. -/
def pgjsWithPgClient {ε : Type u} {α : Type v}
    (pgSettings : Option (List (String × Option String)))
    (cb : Except ε α) : EnvRun ε α :=
  match pgSettings with
  | some s =>
      if s.length > 0 then
        let entries := settingsEntries s
        let scActs : List PgAction :=
          if entries.length > 0 then [.queryJson pgjsSetConfigText entries] else []
        ⟨.nativeTx :: scActs, 0, cb⟩
      else
        ⟨[], 0, cb⟩
  | none => ⟨[], 0, cb⟩

/-! ### PGlite `withPgClient` envelope

Embedding of `createPGLiteAdapter(...).withPgClient` (part_004 lines
245–324).  `orig k` is the server's `current_setting(k, true)` at probe
time (`none` for a null setting).  The restore section runs in `finally`,
so its actions appear whether the callback succeeds or fails. -/

/-- Doubles every double-quote in an identifier
(`key.replace(/"/g, String.fromCharCode(34,34))` in the source). -/
def escapeIdent (s : String) : String :=
  s.replace "\"" "\"\""

/-- The `current_setting` probe actions: one per key bound to a non-null
value, in entry order. -/
def pgliteProbeActions (s : List (String × Option String)) : List PgAction :=
  (s.filter fun kv => kv.2.isSome).map fun kv => .queryParam pgliteProbeText [kv.1]

/-- The captured `originalSettings` list: `(key, current value)` for each
key bound to a non-null value, in entry order. -/
def pgliteOriginalSettings (s : List (String × Option String))
    (orig : String → Option String) : List (String × Option String) :=
  (s.filter fun kv => kv.2.isSome).map fun kv => (kv.1, orig kv.1)

/-- First value bound to `k` in the settings map (JS property lookup). -/
def settingsLookup (s : List (String × Option String)) (k : String) :
    Option (Option String) :=
  (s.find? fun kv => kv.1 == k).map Prod.snd

/-- The restore actions run in the `finally` block: one `set_config`
restoring every originally-non-null value, then a `RESET` for every key
that was originally null but was set by this call. -/
def pgliteRestoreActions (s : List (String × Option String))
    (originalSettings : List (String × Option String)) : List PgAction :=
  if originalSettings.length > 0 then
    let restoreEntries := settingsEntries originalSettings
    (if restoreEntries.length > 0 then
      [PgAction.queryJson pgliteSetConfigText restoreEntries]
    else []) ++
    originalSettings.filterMap fun kv =>
      if kv.2 == none then
        match settingsLookup s kv.1 with
        | some (some _) => some (PgAction.stmt ("RESET \"" ++ escapeIdent kv.1 ++ "\""))
        | _ => none
      else none
  else []

/-- The settings-application actions (the single `set_config` query when
any non-null entry exists). -/
def pgliteApplyActions (s : List (String × Option String)) : List PgAction :=
  let entries := settingsEntries s
  if entries.length > 0 then [.queryJson pgliteSetConfigText entries] else []

/-- PGlite `withPgClient` envelope.  The callback always receives a
level-0 client (`createPGlitePgClient(pgliteInstance, lruManager, 0, false)`). -/
def pgliteWithPgClient {ε : Type u} {α : Type v}
    (pgSettings : Option (List (String × Option String)))
    (orig : String → Option String) (cb : Except ε α) : EnvRun ε α :=
  match pgSettings with
  | some s =>
      if s.length > 0 then
        let originalSettings := pgliteOriginalSettings s orig
        ⟨[PgAction.runExclusive] ++ pgliteProbeActions s ++ pgliteApplyActions s
            ++ pgliteRestoreActions s originalSettings,
          0, cb⟩
      else
        ⟨[], 0, cb⟩
  | none => ⟨[], 0, cb⟩

/-- Number of `queryJson` (settings-style, JSON-array-parameterized)
queries in a trace. -/
def countSetConfig (trace : List PgAction) : Nat :=
  trace.countP fun a =>
    match a with
    | .queryJson _ _ => true
    | _ => false

/-! ## LRU prepared-statement manager

Embedding of `lru-prepared-statements.ts`.  JavaScript values bound to
queries are embedded as `JsValue`; driver rows as association lists. -/

/-- A JavaScript value as classified by `formatValue`. -/
inductive JsValue where
  /-- `null` -/
  | null
  /-- a string -/
  | str (s : String)
  /-- a boolean -/
  | bool (b : Bool)
  /-- a `Date` whose `toISOString()` is `iso` -/
  | date (iso : String)
  /-- an array -/
  | arr (xs : List JsValue)
  /-- a non-null, non-array object whose `JSON.stringify` is `json` -/
  | obj (json : String)
  /-- anything else (number, etc.); `String(value)` is `repr` -/
  | other (repr : String)

mutual

/-- Inline-literal encoding of a value for `EXECUTE`
(`formatValue` in the source). -/
def formatValue : JsValue → String
  | .null => "NULL"
  | .str s => "'" ++ s.replace "'" "''" ++ "'"
  | .bool b => if b then "TRUE" else "FALSE"
  | .date iso => "'" ++ iso ++ "'"
  | .arr xs => "ARRAY[" ++ String.intercalate "," (formatValueList xs) ++ "]"
  | .obj json => "'" ++ json.replace "'" "''" ++ "'::jsonb"
  | .other r => r

/-- `formatValue` mapped over an array's items. -/
def formatValueList : List JsValue → List String
  | [] => []
  | x :: xs => formatValue x :: formatValueList xs

end

/-- Whether the character list `pat` occurs at the start of the first
list. -/
def charsStartWith : List Char → List Char → Bool
  | _, [] => true
  | [], _ :: _ => false
  | c :: cs, p :: ps => c == p && charsStartWith cs ps

/-- Whether `pat` occurs anywhere in the first list. -/
def charsContain : List Char → List Char → Bool
  | [], pat => pat.isEmpty
  | c :: cs, pat => charsStartWith (c :: cs) pat || charsContain cs pat

/-- Decidable stand-in for JavaScript `message.includes(pat)`. -/
def containsSubstr (s pat : String) : Bool :=
  charsContain s.data pat.data

/-- A prepared statement tracked by the manager. -/
structure PreparedStatement where
  name : String
  text : String
  paramCount : Nat
  deriving DecidableEq, Repr

/-- Modelled from the spec: the `@graphile/lru` bounded cache
(`utils/lru`, not under `src/`).  Per §4.4 a lookup hit "touches" the
entry (hoists it to most-recently-used) and an insertion beyond
`maxLength` drops the least-recently-used entry.  Entries are kept
most-recently-used first. -/
structure GLRU where
  maxLength : Nat
  entries : List (String × PreparedStatement)
  deriving DecidableEq, Repr

namespace GLRU

/-- Lookup: on a hit the entry is hoisted to the front (touched). -/
def get (l : GLRU) (k : String) : Option PreparedStatement × GLRU :=
  match l.entries.find? (fun e => e.1 == k) with
  | none => (none, l)
  | some e =>
      (some e.2,
        { l with entries := (k, e.2) :: l.entries.filter (fun x => !(x.1 == k)) })

/-- Insert/update at most-recently-used position; if the cache then
exceeds `maxLength`, the least-recently-used entry is dropped. -/
def set (l : GLRU) (k : String) (v : PreparedStatement) : GLRU :=
  let es := (k, v) :: l.entries.filter (fun x => !(x.1 == k))
  { l with entries := if es.length > l.maxLength then es.dropLast else es }

/-- The keys currently cached, most-recently-used first. -/
def keys (l : GLRU) : List String := l.entries.map Prod.fst

end GLRU

/-- JavaScript `Map` lookup over an insertion-ordered association list. -/
def mapGet (m : List (String × PreparedStatement)) (k : String) :
    Option PreparedStatement :=
  (m.find? fun e => e.1 == k).map Prod.snd

/-- JavaScript `Map.set`: update in place if present, else append. -/
def mapSet (m : List (String × PreparedStatement)) (k : String)
    (v : PreparedStatement) : List (String × PreparedStatement) :=
  if m.any (fun e => e.1 == k) then
    m.map fun e => if e.1 == k then (k, v) else e
  else
    m ++ [(k, v)]

/-- JavaScript `Map.delete`. -/
def mapDelete (m : List (String × PreparedStatement)) (k : String) :
    List (String × PreparedStatement) :=
  m.filter fun e => !(e.1 == k)

/-- Per-connection bookkeeping of the manager (`ConnectionState`). -/
structure ConnectionState where
  lru : GLRU
  statements : List (String × PreparedStatement)
  counter : Nat
  deriving DecidableEq, Repr

/-- A driver row: an object given as its fields in order. -/
def DriverRow := List (String × JsValue)

/-- The executor's result (`QueryResult`); `none` stands for a missing or
null field. -/
structure QueryResult where
  rows : List (List (String × JsValue))
  count : Option Int := none
  rowCount : Option Int := none
  affectedRows : Option Int := none

/-- A row as returned by `executeQuery`: unchanged, or the row's values
when `arrayMode` is set (`Object.values(row)`). -/
inductive OutRow where
  | obj (fields : List (String × JsValue))
  | arr (vals : List JsValue)

/-- The `{rows, rowCount}` value returned by `executeQuery`. -/
structure QueryRes where
  rows : List OutRow
  rowCount : Option Int

/-- Maps a raw executor result to the returned `{rows, rowCount}`:
`arrayMode` converts each row to its values, and the row count is
`result.count ?? result.rowCount ?? result.affectedRows ?? null`. -/
def mapQueryResult (r : QueryResult) (arrayMode : Bool) : QueryRes :=
  { rows :=
      if arrayMode then r.rows.map fun row => OutRow.arr (row.map Prod.snd)
      else r.rows.map OutRow.obj,
    rowCount := r.count <|> r.rowCount <|> r.affectedRows }

/-- An executor: maps query text and bound values to a result or an error
message. -/
def Executor := String → List JsValue → Except String QueryResult

/-- Manager configuration: the cap, the name pieces, and the statement-key
digest.  `genKey` stands for the 16-hex-char MD5 prefix of
`text ++ ":" ++ paramCount` (the hash itself is kept abstract). -/
structure MgrConfig where
  maxPreparedStatements : Nat
  statementPrefix : String
  managerId : String
  genKey : String → Nat → String

/-- The server-side statement name minted for a cache miss
(`"{prefix}_{managerId}_{counter++}"`). -/
def mintedName (cfg : MgrConfig) (counter : Nat) : String :=
  cfg.statementPrefix ++ "_" ++ cfg.managerId ++ "_" ++ toString counter

/-- The `EXECUTE` text for a prepared statement with inline-formatted
values. -/
def executeText (stmt : PreparedStatement) (values : List JsValue) : String :=
  if values.length > 0 then
    "EXECUTE " ++ stmt.name ++ "(" ++
      String.intercalate ", " (values.map formatValue) ++ ")"
  else
    "EXECUTE " ++ stmt.name

/-- The eviction scan: walk the statement map in insertion order; each
`lru.get` probe touches present entries; the first key absent from the
LRU is deallocated (failures logged, not raised) and reported as the
victim. -/
def evictScan (lru : GLRU) :
    List (String × PreparedStatement) →
      GLRU × Option (String × PreparedStatement) × List String
  | [] => (lru, none, [])
  | (k, v) :: rest =>
      match lru.get k with
      | (some _, lru2) => evictScan lru2 rest
      | (none, lru2) => (lru2, some (k, v), ["DEALLOCATE " ++ v.name])

/-- One step of the `EXECUTE` stage: run the statement; classify the
outcome (done, or retry on a `"does not exist"` error). -/
inductive ExecStepKind where
  | done (res : Except String QueryRes)
  | retry

/-- Runs the `EXECUTE` stage once. -/
def runExecuteStep (exec : Executor) (stmt : PreparedStatement)
    (values : List JsValue) (arrayMode : Bool) : String × ExecStepKind :=
  let txt := executeText stmt values
  match exec txt [] with
  | .ok r => (txt, .done (.ok (mapQueryResult r arrayMode)))
  | .error e =>
      if containsSubstr e "does not exist" then (txt, .retry)
      else (txt, .done (.error e))

/-- The insertion stage after a successful `PREPARE`: record the new
statement in the map and the LRU, then evict when the statement set
exceeds the cap. -/
def insertAndEvict (cap : Nat) (st1 : ConnectionState) (key : String)
    (stmt : PreparedStatement) : ConnectionState × List String :=
  let st2 : ConnectionState :=
    { st1 with statements := mapSet st1.statements key stmt,
               lru := st1.lru.set key stmt }
  if st2.statements.length > cap then
    match evictScan st2.lru st2.statements with
    | (lru2, some (vk, _), tr) =>
        ({ st2 with lru := lru2, statements := mapDelete st2.statements vk }, tr)
    | (lru2, none, tr) => ({ st2 with lru := lru2 }, tr)
  else (st2, [])

/-- Embedding of the manager's `executeQuery`
(lru-prepared-statements.ts lines 159–274), with explicit fuel bounding
the `"does not exist"` retry recursion (`none` = fuel exhausted; the
source recursion is unbounded in that corner).  Returns the final
connection state, the SQL texts handed to the executor in order, and the
caller-visible outcome. -/
def executeQuery (cfg : MgrConfig) (exec : Executor) :
    Nat → ConnectionState → Option String → String → List JsValue → Bool →
      Option (ConnectionState × List String × Except String QueryRes)
  | 0, _, _, _, _, _ => none
  | fuel + 1, st, queryName, queryText, values, arrayMode =>
    if queryName.isNone || values.length == 0 then
      -- short-circuit: direct execution, no caching
      some (st, [queryText],
        (exec queryText values).map fun r => mapQueryResult r arrayMode)
    else
      let key := cfg.genKey queryText values.length
      match mapGet st.statements key with
      | some stmt =>
          -- hit: touch the LRU, then execute
          let st1 : ConnectionState := { st with lru := (st.lru.get key).2 }
          match runExecuteStep exec stmt values arrayMode with
          | (txt, .done res) => some (st1, [txt], res)
          | (txt, .retry) =>
              let st2 : ConnectionState :=
                { st1 with statements := mapDelete st1.statements key }
              match executeQuery cfg exec fuel st2 queryName queryText values arrayMode with
              | none => none
              | some (st3, tr, res) => some (st3, txt :: tr, res)
      | none =>
          -- miss: mint a name, PREPARE, insert, maybe evict, then execute
          let stmtName := mintedName cfg st.counter
          let st1 : ConnectionState := { st with counter := st.counter + 1 }
          let prepText := "PREPARE " ++ stmtName ++ " AS " ++ queryText
          match exec prepText [] with
          | .error _ =>
              -- "can't prepare" fallback: direct execution
              some (st1, [prepText, queryText],
                (exec queryText values).map fun r => mapQueryResult r arrayMode)
          | .ok _ =>
              let stmt : PreparedStatement :=
                ⟨stmtName, queryText, values.length⟩
              let (st3, evTrace) :=
                insertAndEvict cfg.maxPreparedStatements st1 key stmt
              match runExecuteStep exec stmt values arrayMode with
              | (txt, .done res) =>
                  some (st3, prepText :: evTrace ++ [txt], res)
              | (txt, .retry) =>
                  let st4 : ConnectionState :=
                    { st3 with statements := mapDelete st3.statements key }
                  match executeQuery cfg exec fuel st4 queryName queryText values arrayMode with
                  | none => none
                  | some (st5, tr, res) =>
                      some (st5, prepText :: evTrace ++ [txt] ++ tr, res)

/-- The empty per-connection state created lazily by
`getConnectionState`. -/
def initialConnectionState (cap : Nat) : ConnectionState :=
  ⟨⟨cap, []⟩, [], 0⟩

/-- A named query of a call sequence: its name, text, and values. -/
structure CallSpec where
  queryName : Option String
  queryText : String
  values : List JsValue
  arrayMode : Bool

/-- Runs a sequence of `executeQuery` calls, threading the connection
state; also returns the concatenated SQL trace (`none` on fuel
exhaustion). -/
def runCalls (cfg : MgrConfig) (exec : Executor) (fuel : Nat) :
    ConnectionState → List CallSpec → Option (ConnectionState × List String)
  | st, [] => some (st, [])
  | st, c :: rest =>
      match executeQuery cfg exec fuel st c.queryName c.queryText c.values c.arrayMode with
      | none => none
      | some (st2, tr, _) =>
          match runCalls cfg exec fuel st2 rest with
          | none => none
          | some (st3, tr2) => some (st3, tr ++ tr2)

/-! ### Global string-key state table

Embedding of the process-global `stringKeyStates` map, tracked at the
level of which keys are present (oldest first).  `getConnectionState`
appends an absent key; `cleanupStringStates` runs from `executeQuery`'s
`finally` only when `Math.random() < 0.01`, modelled by the explicit
`coin` input of each step. -/

/-- `cleanupStringStates`: when more than 100 keys are tracked, the
oldest (first-inserted) is dropped. -/
def cleanupStringStates (table : List String) : List String :=
  if table.length > 100 then table.tail else table

/-- One string-keyed `executeQuery` call as seen by the global table:
`getConnectionState` inserts the key if absent, then the `finally` block
runs the cleanup when the random draw (`coin`) hits. -/
def stringStateStep (table : List String) (k : String) (coin : Bool) :
    List String :=
  let t2 := if table.contains k then table else table ++ [k]
  if coin then cleanupStringStates t2 else t2

/-- Runs a sequence of string-keyed calls against the global table. -/
def stringStateRun : List String → List (String × Bool) → List String
  | t, [] => t
  | t, (k, c) :: rest => stringStateRun (stringStateStep t k c) rest

/-! ## Pool release lifecycles

Embeddings of `createPgPoolFromPool`'s `releaseOnce` (part_005 lines
282–291), `createNodePostgresAdapter(...).release` (part_005 lines
479–486) and `createPostgresJsAdapter(...).release` (postgres.ts lines
324–352), at the level of the released/owned flags they branch on. -/

/-- State of a `createPgPoolFromPool` pool: whether `release` ran. -/
structure FromPoolState where
  released : Bool
  deriving DecidableEq, Repr

/-- `releaseOnce`: the first call forwards to the underlying `release`
callback; a second call throws. -/
def fromPoolRelease (st : FromPoolState) :
    Except String (FromPoolState × List String) :=
  if st.released then .error "Release called twice on the same PgPool"
  else .ok ({ released := true }, ["release"])

/-- State of a `createNodePostgresAdapter` pool: whether the lazy `pool`
is currently non-null, and whether `config.pool` was supplied by the
caller. -/
structure NodeAdapterState where
  pool : Bool
  configPool : Bool
  deriving DecidableEq, Repr

/-- node-postgres adapter `release`: ends the pool only when it exists
and was created here; never throws. -/
def nodeAdapterRelease (st : NodeAdapterState) :
    Except String (NodeAdapterState × List String) :=
  if st.pool && !st.configPool then .ok ({ st with pool := false }, ["pool.end"])
  else .ok (st, [])

/-- State of a `createPostgresJsAdapter` pool: whether the lazy `sql`
instance is currently non-null, and whether `config.sql` was supplied. -/
structure PgjsAdapterState where
  sql : Bool
  configSql : Bool
  deriving DecidableEq, Repr

/-- postgres.js adapter `release`: cleans up prepared statements when the
instance exists, ends it only when created here; never throws. -/
def pgjsAdapterRelease (st : PgjsAdapterState) :
    Except String (PgjsAdapterState × List String) :=
  let cleanup := if st.sql then ["cleanupConnection"] else []
  if st.sql && !st.configSql then
    .ok ({ st with sql := false }, cleanup ++ ["sql.end"])
  else
    .ok (st, cleanup)

/-! ## LISTEN/NOTIFY subscriber

Embedding of `PgSubscriber` (pgSubscriber.ts) as a state machine over
subscribe / consumer-detach / release events.  The asynchronous
`pgPool.listen` and the stored unlisten handles are modelled as
succeeding within the step that initiates them (the SQL round-trips are
the `poolListen`/`unlistenInvoked` actions). -/

/-- A consumer stream: its topic and its `finished` flag. -/
structure Consumer where
  topic : String
  finished : Bool
  deriving DecidableEq, Repr

/-- Subscriber state: liveness, every consumer ever created (keyed by a
synthetic id), the active topic lists (`this.topics`, registration
order), and the topics holding a stored unlisten handle
(`this.unlisteners`). -/
structure SubState where
  alive : Bool
  consumers : List (Nat × Consumer)
  topics : List (String × List Nat)
  unlisteners : List String
  nextId : Nat
  deriving DecidableEq, Repr

/-- Observable subscriber actions. -/
inductive SubAction where
  /-- `pgPool.listen(topic, ...)` was invoked (one physical `LISTEN`). -/
  | poolListen (topic : String)
  /-- the stored unlisten handle for `topic` was invoked. -/
  | unlistenInvoked (topic : String)
  /-- consumer `id`'s stream was finished (its `doFinally` ran its body). -/
  | iterFinished (id : Nat)
  deriving DecidableEq, Repr

/-- The freshly constructed subscriber. -/
def initSubState : SubState := ⟨true, [], [], [], 0⟩

/-- Lookup in `this.topics`. -/
def topicsGet (ts : List (String × List Nat)) (t : String) : Option (List Nat) :=
  (ts.find? fun e => e.1 == t).map Prod.snd

/-- Update of `this.topics[t]`. -/
def topicsSet (ts : List (String × List Nat)) (t : String) (ids : List Nat) :
    List (String × List Nat) :=
  if ts.any (fun e => e.1 == t) then
    ts.map fun e => if e.1 == t then (t, ids) else e
  else
    ts ++ [(t, ids)]

/-- `delete this.topics[t]`. -/
def topicsDelete (ts : List (String × List Nat)) (t : String) :
    List (String × List Nat) :=
  ts.filter fun e => !(e.1 == t)

/-- Lookup of a consumer by id. -/
def consumersGet (cs : List (Nat × Consumer)) (id : Nat) : Option Consumer :=
  (cs.find? fun e => e.1 == id).map Prod.snd

/-- Update of a consumer record. -/
def consumersSet (cs : List (Nat × Consumer)) (id : Nat) (c : Consumer) :
    List (Nat × Consumer) :=
  cs.map fun e => if e.1 == id then (id, c) else e

/-- `this.unlisten(topic)`: invoke and drop the stored handle when one
exists (unlisten errors are caught and logged). -/
def subUnlisten (st : SubState) (t : String) : SubState × List SubAction :=
  if st.unlisteners.contains t then
    ({ st with unlisteners := st.unlisteners.filter fun x => !(x == t) },
      [.unlistenInvoked t])
  else (st, [])

/-- `doFinally` of a consumer stream (pgSubscriber.ts lines 33–51):
idempotent via the `finished` flag; removes the consumer from its
topic's list; when the list empties, deletes the topic and tears down
the physical `LISTEN`. -/
def doFinally (st : SubState) (id : Nat) : SubState × List SubAction :=
  match consumersGet st.consumers id with
  | none => (st, [])
  | some c =>
      if c.finished then (st, [])
      else
        let cs := consumersSet st.consumers id { c with finished := true }
        match topicsGet st.topics c.topic with
        | none => ({ st with consumers := cs }, [.iterFinished id])
        | some ids =>
            if id ∈ ids then
              let ids2 := ids.erase id
              if ids2.isEmpty then
                let st2 : SubState :=
                  { st with consumers := cs,
                            topics := topicsDelete st.topics c.topic }
                let (st3, acts) := subUnlisten st2 c.topic
                (st3, .iterFinished id :: acts)
              else
                ({ st with consumers := cs,
                           topics := topicsSet st.topics c.topic ids2 },
                  [.iterFinished id])
            else ({ st with consumers := cs }, [.iterFinished id])

/-- `subscribe(topic)` (pgSubscriber.ts lines 21–97): errors after
release; the first consumer of a topic triggers `pgPool.listen` (whose
unlisten handle is stored); later consumers only join the list. -/
def subSubscribe (st : SubState) (t : String) :
    Except String (SubState × Nat × List SubAction) :=
  if !st.alive then .error "This PgSubscriber has been released."
  else
    let id := st.nextId
    let cs := st.consumers ++ [(id, ⟨t, false⟩)]
    match topicsGet st.topics t with
    | none =>
        .ok ({ st with consumers := cs,
                       topics := st.topics ++ [(t, [id])],
                       unlisteners := st.unlisteners ++ [t],
                       nextId := id + 1 },
          id, [.poolListen t])
    | some ids =>
        .ok ({ st with consumers := cs,
                       topics := topicsSet st.topics t (ids ++ [id]),
                       nextId := id + 1 },
          id, [])

/-- The `for (const it of this.topics[topic])` loop of `release`,
faithful to JavaScript iteration over the live array: the index advances
while `doFinally` splices the array, so elements shift under the
iterator.  `fuel` bounds the walk (the initial length suffices). -/
def releaseTopicLoop (t : String) :
    Nat → Nat → SubState → List SubAction → SubState × List SubAction
  | 0, _, st, acc => (st, acc)
  | fuel + 1, i, st, acc =>
      let ids := (topicsGet st.topics t).getD []
      match ids.get? i with
      | none => (st, acc)
      | some id =>
          let (st2, acts) := doFinally st id
          releaseTopicLoop t fuel (i + 1) st2 (acc ++ acts)

/-- One topic of `release()`: run the live-array loop over the topic's
consumers, then `delete this.topics[topic]`. -/
def releaseStep (p : SubState × List SubAction) (t : String) :
    SubState × List SubAction :=
  let len := ((topicsGet p.1.topics t).getD []).length
  let (stA, actsA) := releaseTopicLoop t len 0 p.1 p.2
  ({ stA with topics := topicsDelete stA.topics t }, actsA)

/-- `release()` (pgSubscriber.ts lines 130–158): on a live subscriber,
finish every consumer reachable by the (splice-perturbed) topic loops,
delete each topic, invoke every remaining stored unlisten handle, and
clear; on a released subscriber, do nothing. -/
def subRelease (st : SubState) : SubState × List SubAction :=
  if st.alive then
    let st1 : SubState := { st with alive := false }
    let (st2, acts) := (st1.topics.map Prod.fst).foldl releaseStep (st1, [])
    let unlistenActs := st2.unlisteners.map SubAction.unlistenInvoked
    ({ st2 with unlisteners := [] }, acts ++ unlistenActs)
  else (st, [])

/-- External events driving the subscriber. -/
inductive SubEvent where
  /-- a caller subscribes to topic `t` -/
  | subscribe (t : String)
  /-- consumer `id`'s stream is returned/thrown -/
  | detach (id : Nat)
  /-- the subscriber is released -/
  | release
  deriving DecidableEq, Repr

/-- One event step (a failed `subscribe` after release leaves the state
unchanged). -/
def subStep (st : SubState) : SubEvent → SubState × List SubAction
  | .subscribe t =>
      match subSubscribe st t with
      | .ok (st2, _, acts) => (st2, acts)
      | .error _ => (st, [])
  | .detach id => doFinally st id
  | .release => subRelease st

/-- Runs an event sequence from the fresh subscriber, concatenating the
actions. -/
def subRun : SubState → List SubEvent → SubState × List SubAction
  | st, [] => (st, [])
  | st, e :: es =>
      let (st2, acts) := subStep st e
      let (st3, acts2) := subRun st2 es
      (st3, acts ++ acts2)

/-! ## Statement-level helper notions -/

/-- The keys of a statement map, in insertion order. -/
def keysOf (m : List (String × PreparedStatement)) : List String :=
  m.map Prod.fst

/-- Whether an action is a settings-style `queryJson` query. -/
def isSetConfigAct : PgAction → Bool
  | .queryJson _ _ => true
  | _ => false

/-- The spec's notion referenced by the LRU-bound claim: the distinct
statement keys of a use sequence ordered by most recent use, truncated to
the cap. -/
def mruKeys (uses : List String) (cap : Nat) : List String :=
  (uses.reverse.foldl
    (fun acc k => if acc.contains k then acc else acc ++ [k]) []).take cap

/-- The connection-state invariant maintained by `executeQuery`: distinct
keys on both structures, the LRU capped at and configured with the cap,
and the statement map within the cap. -/
structure MgrInv (cap : Nat) (st : ConnectionState) : Prop where
  stmtsNodup : (keysOf st.statements).Nodup
  lruNodup : st.lru.keys.Nodup
  lruCap : st.lru.entries.length ≤ cap
  stmtsCap : st.statements.length ≤ cap
  lruMax : st.lru.maxLength = cap

/-- The subscriber invariant: every active topic holds a stored unlisten
handle. -/
def SubInv (st : SubState) : Prop :=
  ∀ t ids, topicsGet st.topics t = some ids → t ∈ st.unlisteners

/-! ## Concrete fixtures for witnesses and counterexamples -/

/-- A two-statement manager configuration with a constant digest. -/
def cfgW : MgrConfig := ⟨2, "lru", "m", fun _ _ => "K"⟩

/-- The initially cached statement of the concrete runs. -/
def stmtW : PreparedStatement := ⟨"lru_m_0", "q", 1⟩

/-- A connection state holding `stmtW` under key `K`. -/
def stW : ConnectionState := ⟨⟨2, [("K", stmtW)]⟩, [("K", stmtW)], 1⟩

/-- An executor whose `EXECUTE` of the stale statement reports the
statement missing and that accepts everything else. -/
def execLost : Executor := fun t _ =>
  if t = "EXECUTE lru_m_0(7)" then
    Except.error "prepared statement lru_m_0 does not exist"
  else Except.ok ⟨[], none, none, none⟩

/-- An executor whose `EXECUTE` of the cached statement fails with an
unrelated error. -/
def execBroken : Executor := fun t _ =>
  if t = "EXECUTE lru_m_0(7)" then Except.error "syntax error"
  else Except.ok ⟨[], none, none, none⟩

/-- An executor that accepts everything. -/
def execOk : Executor := fun _ _ => Except.ok ⟨[], none, none, none⟩

/-- A second and a third prepared statement for overflow fixtures. -/
def stmtW2 : PreparedStatement := ⟨"lru_m_1", "q2", 1⟩

/-- See `stmtW2`. -/
def stmtW3 : PreparedStatement := ⟨"lru_m_2", "q3", 1⟩

/-- A connection state already at the cap of two statements. -/
def stOver : ConnectionState :=
  ⟨⟨2, [("K1", stmtW), ("K2", stmtW2)]⟩, [("K1", stmtW), ("K2", stmtW2)], 2⟩

/-- A cap-2 configuration whose digest is the query text itself. -/
def cfg5 : MgrConfig := ⟨2, "lru5", "m", fun t _ => t⟩

/-- A named single-value query call on the given text. -/
def mkCall (t : String) : CallSpec := ⟨some "n", t, [JsValue.other "7"], false⟩

/-! ## Map and LRU helper lemmas -/

/-- Deleting a key removes it from the map. -/
theorem mapGet_mapDelete_self (m : List (String × PreparedStatement))
    (k : String) : mapGet (mapDelete m k) k = none := by
  unfold mapGet mapDelete
  rw [Option.map_eq_none', List.find?_eq_none]
  intro e he
  have := (List.mem_filter.mp he).2
  simp at this
  simp [this]

/-- Setting a key makes it retrievable. -/
theorem mapGet_mapSet_self (m : List (String × PreparedStatement))
    (k : String) (v : PreparedStatement) : mapGet (mapSet m k v) k = some v := by
  by_cases h : m.any (fun e => e.1 == k)
  · unfold mapGet mapSet
    rw [if_pos h]
    induction m with
    | nil => simp at h
    | cons hd tl ih =>
        by_cases h1 : hd.1 == k
        · rw [List.map_cons, if_pos h1, List.find?_cons_of_pos]
          · rfl
          · simp
        · have h2 : (hd.1 == k) = false := by simpa using h1
          simp only [List.any_cons, h2, Bool.false_or] at h
          rw [List.map_cons, if_neg h1, List.find?_cons_of_neg]
          · exact ih h
          · simpa using h1
  · unfold mapGet mapSet
    rw [if_neg h]
    have hnone : List.find? (fun e => e.1 == k) m = none := by
      rw [List.find?_eq_none]
      intro e he hb
      exact h (List.any_eq_true.mpr ⟨e, he, hb⟩)
    rw [List.find?_append, hnone]
    simp

/-- Deleting a present key strictly shrinks the map. -/
theorem length_mapDelete_lt (m : List (String × PreparedStatement))
    (k : String) (v : PreparedStatement) (h : mapGet m k = some v) :
    (mapDelete m k).length < m.length := by
  unfold mapDelete
  apply List.length_filter_lt_length_iff_exists.mpr
  unfold mapGet at h
  rcases Option.map_eq_some'.mp h with ⟨e, he, hv⟩
  have hmem := List.mem_of_find?_eq_some he
  have hb := List.find?_some he
  exact ⟨e, hmem, by simp_all⟩

/-- Setting an absent key appends it. -/
theorem length_mapSet_of_absent (m : List (String × PreparedStatement))
    (k : String) (v : PreparedStatement) (h : mapGet m k = none) :
    (mapSet m k v).length = m.length + 1 := by
  unfold mapSet
  unfold mapGet at h
  rw [Option.map_eq_none', List.find?_eq_none] at h
  rw [if_neg]
  · simp
  · intro hany
    rcases List.any_eq_true.mp hany with ⟨e, he, hb⟩
    exact absurd hb (by simpa using h e he)

/-- A key that misses does not satisfy `any`. -/
theorem any_eq_false_of_mapGet_none (m : List (String × PreparedStatement))
    (k : String) (h : mapGet m k = none) :
    (m.any fun e => e.1 == k) = false := by
  unfold mapGet at h
  rw [Option.map_eq_none', List.find?_eq_none] at h
  rw [List.any_eq_false]
  intro e he
  simpa using h e he

/-- A key that misses is not among the map's keys. -/
theorem not_mem_keysOf_of_mapGet_none (m : List (String × PreparedStatement))
    (k : String) (h : mapGet m k = none) : k ∉ keysOf m := by
  intro hk
  rcases List.mem_map.mp hk with ⟨e, he, hek⟩
  unfold mapGet at h
  rw [Option.map_eq_none', List.find?_eq_none] at h
  exact absurd (by simp [hek]) (h e he)

/-- Setting an absent key appends it to the key list. -/
theorem keysOf_mapSet_of_absent (m : List (String × PreparedStatement))
    (k : String) (v : PreparedStatement) (h : mapGet m k = none) :
    keysOf (mapSet m k v) = keysOf m ++ [k] := by
  unfold mapSet keysOf
  rw [if_neg (by simp [any_eq_false_of_mapGet_none m k h])]
  simp

/-- Deletion yields a key sublist. -/
theorem keysOf_mapDelete_sublist (m : List (String × PreparedStatement))
    (k : String) : List.Sublist (keysOf (mapDelete m k)) (keysOf m) :=
  List.Sublist.map Prod.fst (List.filter_sublist m)

/-- With distinct keys, deleting a present key removes exactly one
entry. -/
theorem length_mapDelete_of_mem (m : List (String × PreparedStatement))
    (k : String) (v : PreparedStatement) (hn : (keysOf m).Nodup)
    (hm : (k, v) ∈ m) : (mapDelete m k).length + 1 = m.length := by
  induction m with
  | nil => cases hm
  | cons hd tl ih =>
      rcases List.nodup_cons.mp hn with ⟨hhd, htl⟩
      by_cases h1 : (hd.1 == k) = true
      · have hk : hd.1 = k := by simpa using h1
        have hfil : tl.filter (fun x => !(x.1 == k)) = tl := by
          apply List.filter_eq_self.mpr
          intro x hx
          simp only [Bool.not_eq_true']
          by_contra hb
          simp only [Bool.not_eq_false] at hb
          exact hhd (by
            rw [hk]
            exact List.mem_map.mpr ⟨x, hx, by simpa using hb⟩)
        unfold mapDelete
        rw [List.filter_cons_of_neg (by simp [h1]), hfil]
        simp
      · have hmem : (k, v) ∈ tl := by
          rcases List.mem_cons.mp hm with h | h
          · exact absurd (by rw [← h]; simp) h1
          · exact h
        unfold mapDelete
        rw [List.filter_cons_of_pos (by simpa using h1)]
        have h2 := ih htl hmem
        unfold mapDelete at h2
        simp only [List.length_cons]
        omega

/-- With distinct keys, the entry found by key decomposes the list up to
permutation when hoisted to the front. -/
theorem find?_key_filter_perm (entries : List (String × PreparedStatement))
    (k : String) (hn : (entries.map Prod.fst).Nodup)
    (e : String × PreparedStatement)
    (hf : entries.find? (fun x => x.1 == k) = some e) :
    e.1 = k ∧
      ((k, e.2) :: entries.filter (fun x => !(x.1 == k))).Perm entries := by
  induction entries with
  | nil => cases hf
  | cons hd tl ih =>
      rcases List.nodup_cons.mp hn with ⟨hhd, htl⟩
      by_cases h1 : (hd.1 == k) = true
      · rw [show List.find? (fun x => x.1 == k) (hd :: tl) = some hd from
          List.find?_cons_of_pos _ h1] at hf
        injection hf with hf
        have hk : hd.1 = k := by simpa using h1
        refine ⟨by rw [← hf]; exact hk, ?_⟩
        have hfil : tl.filter (fun x => !(x.1 == k)) = tl := by
          apply List.filter_eq_self.mpr
          intro x hx
          simp only [Bool.not_eq_true']
          by_contra hb
          simp only [Bool.not_eq_false] at hb
          exact hhd (by
            rw [hk]
            exact List.mem_map.mpr ⟨x, hx, by simpa using hb⟩)
        rw [List.filter_cons_of_neg (by simp [h1]), hfil, ← hf, ← hk]
      · rw [show List.find? (fun x => x.1 == k) (hd :: tl)
            = List.find? (fun x => x.1 == k) tl from
          List.find?_cons_of_neg _ (by simpa using h1)] at hf
        rcases ih htl hf with ⟨hek, hperm⟩
        refine ⟨hek, ?_⟩
        rw [List.filter_cons_of_pos (by simpa using h1)]
        exact (List.Perm.swap hd (k, e.2) _).trans (hperm.cons hd)

/-- `GLRU.get` leaves the cache bound unchanged. -/
theorem glruGet_maxLength (l : GLRU) (k : String) :
    ((l.get k).2).maxLength = l.maxLength := by
  unfold GLRU.get
  cases hf : l.entries.find? (fun e => e.1 == k) <;> rfl

/-- With distinct keys, `GLRU.get` permutes the entries (a hit is merely
hoisted to the front). -/
theorem glruGet_entries_perm (l : GLRU) (k : String) (hn : l.keys.Nodup) :
    ((l.get k).2).entries.Perm l.entries := by
  unfold GLRU.get
  cases hf : l.entries.find? (fun e => e.1 == k) with
  | none => exact List.Perm.refl _
  | some e => exact (find?_key_filter_perm l.entries k hn e hf).2

/-- With distinct keys, `GLRU.get` permutes the key list. -/
theorem glruGet_keys_perm (l : GLRU) (k : String) (hn : l.keys.Nodup) :
    ((l.get k).2).keys.Perm l.keys :=
  (glruGet_entries_perm l k hn).map Prod.fst

/-- The lookup misses exactly when the key is not cached. -/
theorem glruGet_none_iff (l : GLRU) (k : String) :
    (l.get k).1 = none ↔ k ∉ l.keys := by
  unfold GLRU.get GLRU.keys
  cases hf : l.entries.find? (fun e => e.1 == k) with
  | none =>
      dsimp only
      constructor
      · intro _ hk
        rcases List.mem_map.mp hk with ⟨e, he, hek⟩
        rw [List.find?_eq_none] at hf
        exact absurd (by simp [hek]) (hf e he)
      · intro _
        rfl
  | some e =>
      dsimp only
      constructor
      · intro h
        exact Option.noConfusion h
      · intro hk
        exfalso
        apply hk
        have hmem := List.mem_of_find?_eq_some hf
        have hb := List.find?_some hf
        exact List.mem_map.mpr ⟨e, hmem, by simpa using hb⟩

/-- `GLRU.set` leaves the cache bound unchanged. -/
theorem glruSet_maxLength (l : GLRU) (k : String) (v : PreparedStatement) :
    (l.set k v).maxLength = l.maxLength := rfl

/-- `GLRU.set` keeps the entry count within the bound. -/
theorem glruSet_length_le (l : GLRU) (k : String) (v : PreparedStatement)
    (h : l.entries.length ≤ l.maxLength) :
    (l.set k v).entries.length ≤ l.maxLength := by
  unfold GLRU.set
  dsimp only
  have hfle : (l.entries.filter fun x => !(x.1 == k)).length ≤ l.entries.length :=
    List.length_filter_le _ _
  split
  · rw [List.length_dropLast]
    simp only [List.length_cons]
    omega
  · rename_i hc
    simp only [List.length_cons, Nat.not_lt] at hc ⊢
    omega

/-- `GLRU.set` preserves key distinctness. -/
theorem glruSet_keys_nodup (l : GLRU) (k : String) (v : PreparedStatement)
    (hn : l.keys.Nodup) : (l.set k v).keys.Nodup := by
  have hfn : ((l.entries.filter fun x => !(x.1 == k)).map Prod.fst).Nodup :=
    List.Sublist.nodup (List.Sublist.map Prod.fst (List.filter_sublist _)) hn
  have hknot : k ∉ (l.entries.filter fun x => !(x.1 == k)).map Prod.fst := by
    intro hk
    rcases List.mem_map.mp hk with ⟨e, he, hek⟩
    have := (List.mem_filter.mp he).2
    simp [hek] at this
  have hes : (((k, v) :: l.entries.filter fun x => !(x.1 == k)).map Prod.fst).Nodup := by
    rw [List.map_cons]
    exact List.nodup_cons.mpr ⟨hknot, hfn⟩
  unfold GLRU.set GLRU.keys
  dsimp only
  split
  · exact List.Sublist.nodup (List.Sublist.map Prod.fst (List.dropLast_sublist _)) hes
  · exact hes

/-- Pigeonhole: a statement map with distinct keys larger than a key list
holds a key outside that list. -/
theorem exists_key_not_mem (m : List (String × PreparedStatement))
    (ks : List String) (hn : (keysOf m).Nodup) (h : ks.length < m.length) :
    ∃ e ∈ m, e.1 ∉ ks := by
  by_contra hall
  push_neg at hall
  have hsub : keysOf m ⊆ ks := by
    intro k hk
    rcases List.mem_map.mp hk with ⟨e, he, hek⟩
    rw [← hek]
    exact hall e he
  have hle := (List.subperm_of_subset hn hsub).length_le
  rw [keysOf, List.length_map] at hle
  omega

/-- The eviction scan, when some statement key is outside the LRU, stops
at the first such key: it issues exactly one `DEALLOCATE`, reports that
key as the victim (a key absent from the LRU), and only permutes the
LRU's contents through its membership probes. -/
theorem evictScan_found (stmts : List (String × PreparedStatement)) :
    ∀ lru : GLRU, lru.keys.Nodup → (∃ e ∈ stmts, e.1 ∉ lru.keys) →
      ∃ vk vv lru3,
        evictScan lru stmts = (lru3, some (vk, vv), ["DEALLOCATE " ++ vv.name]) ∧
        (vk, vv) ∈ stmts ∧ vk ∉ lru.keys ∧ lru3.keys.Perm lru.keys ∧
        lru3.maxLength = lru.maxLength := by
  induction stmts with
  | nil =>
      intro lru _ hex
      rcases hex with ⟨e, he, _⟩
      cases he
  | cons hd tl ih =>
      intro lru hn hex
      cases hf : lru.entries.find? (fun e => e.1 == hd.1) with
      | none =>
          have hnotm : hd.1 ∉ lru.keys := by
            intro hk
            rcases List.mem_map.mp hk with ⟨e, he, hek⟩
            rw [List.find?_eq_none] at hf
            exact absurd (by simp [hek]) (hf e he)
          refine ⟨hd.1, hd.2, lru, ?_, List.mem_cons_self _ _, hnotm,
            List.Perm.refl _, rfl⟩
          show evictScan lru ((hd.1, hd.2) :: tl)
              = (lru, some (hd.1, hd.2), ["DEALLOCATE " ++ hd.2.name])
          rw [evictScan]
          unfold GLRU.get
          rw [hf]
      | some e =>
          have hhd : hd.1 ∈ lru.keys := by
            have hmem := List.mem_of_find?_eq_some hf
            have hb := List.find?_some hf
            exact List.mem_map.mpr ⟨e, hmem, by simpa using hb⟩
          have hperm2 : ((lru.get hd.1).2).keys.Perm lru.keys :=
            glruGet_keys_perm lru hd.1 hn
          have hn2 : ((lru.get hd.1).2).keys.Nodup := hperm2.symm.nodup hn
          have hex2 : ∃ w ∈ tl, w.1 ∉ ((lru.get hd.1).2).keys := by
            rcases hex with ⟨w, hw, hwnot⟩
            rcases List.mem_cons.mp hw with h | h
            · exact absurd (h ▸ hhd) hwnot
            · exact ⟨w, h, fun hin => hwnot (hperm2.mem_iff.mp hin)⟩
          rcases ih ((lru.get hd.1).2) hn2 hex2 with
            ⟨vk, vv, lru3, heq3, hmem3, hvnot3, hperm3, hmax3⟩
          refine ⟨vk, vv, lru3, ?_, List.mem_cons_of_mem hd hmem3,
            fun hin => hvnot3 (hperm2.mem_iff.mpr hin),
            hperm3.trans hperm2,
            hmax3.trans (glruGet_maxLength lru hd.1)⟩
          have hstep : evictScan lru ((hd.1, hd.2) :: tl)
              = evictScan ((lru.get hd.1).2) tl := by
            rw [evictScan]
            rcases hget : lru.get hd.1 with ⟨res, lru2⟩
            have hres : res = some e.2 := by
              unfold GLRU.get at hget
              rw [hf] at hget
              exact congrArg Prod.fst hget.symm
            rw [hres]
          exact hstep.trans heq3

/-- The insertion stage preserves the manager invariant when the key is
fresh. -/
theorem insertAndEvict_inv (cap : Nat) (st1 : ConnectionState) (key : String)
    (stmt : PreparedStatement) (inv : MgrInv cap st1)
    (hfresh : mapGet st1.statements key = none) :
    MgrInv cap (insertAndEvict cap st1 key stmt).1 := by
  obtain ⟨hsn, hln, hlc, hsc, hlm⟩ := inv
  have hkeys2 : keysOf (mapSet st1.statements key stmt)
      = keysOf st1.statements ++ [key] := keysOf_mapSet_of_absent _ _ _ hfresh
  have hkfresh : key ∉ keysOf st1.statements :=
    not_mem_keysOf_of_mapGet_none _ _ hfresh
  have hsn2 : (keysOf (mapSet st1.statements key stmt)).Nodup := by
    rw [hkeys2]
    have hcons : (key :: keysOf st1.statements).Nodup :=
      List.nodup_cons.mpr ⟨hkfresh, hsn⟩
    exact ((List.perm_append_singleton key (keysOf st1.statements)).symm).nodup hcons
  have hlen2 : (mapSet st1.statements key stmt).length
      = st1.statements.length + 1 := length_mapSet_of_absent _ _ _ hfresh
  have hmax2 : (st1.lru.set key stmt).maxLength = cap := by
    rw [glruSet_maxLength, hlm]
  have hlc2 : (st1.lru.set key stmt).entries.length ≤ cap := by
    have h2 := glruSet_length_le st1.lru key stmt (by rw [hlm]; exact hlc)
    rwa [hlm] at h2
  have hln2 : (st1.lru.set key stmt).keys.Nodup := glruSet_keys_nodup _ _ _ hln
  unfold insertAndEvict
  dsimp only
  split
  · rename_i hover
    have hex : ∃ e ∈ mapSet st1.statements key stmt,
        e.1 ∉ (st1.lru.set key stmt).keys := by
      apply exists_key_not_mem _ _ hsn2
      have hkl : (st1.lru.set key stmt).keys.length
          = (st1.lru.set key stmt).entries.length := by
        simp [GLRU.keys]
      omega
    rcases evictScan_found _ _ hln2 hex with
      ⟨vk, vv, lru3, heq3, hmem3, hvnot3, hperm3, hmax3⟩
    rw [heq3]
    dsimp only
    refine ⟨?_, ?_, ?_, ?_, ?_⟩
    · exact List.Sublist.nodup (keysOf_mapDelete_sublist _ _) hsn2
    · exact hperm3.symm.nodup hln2
    · show lru3.entries.length ≤ cap
      have hkl3 : lru3.keys.length = lru3.entries.length := by simp [GLRU.keys]
      have hkl2 : (st1.lru.set key stmt).keys.length
          = (st1.lru.set key stmt).entries.length := by simp [GLRU.keys]
      have hle := hperm3.length_eq
      omega
    · show (mapDelete (mapSet st1.statements key stmt) vk).length ≤ cap
      have hdel := length_mapDelete_of_mem (mapSet st1.statements key stmt)
        vk vv hsn2 hmem3
      omega
    · show lru3.maxLength = cap
      rw [hmax3, hmax2]
  · rename_i hno
    refine ⟨hsn2, hln2, hlc2, ?_, hmax2⟩
    show (mapSet st1.statements key stmt).length ≤ cap
    omega

/-- Touching the LRU preserves the manager invariant. -/
theorem touch_inv (cap : Nat) (st : ConnectionState) (key : String)
    (inv : MgrInv cap st) :
    MgrInv cap { st with lru := (st.lru.get key).2 } := by
  obtain ⟨hsn, hln, hlc, hsc, hlm⟩ := inv
  have hperm := glruGet_entries_perm st.lru key hln
  refine ⟨hsn, ?_, ?_, hsc, ?_⟩
  · exact ((hperm.map Prod.fst).symm).nodup hln
  · show ((st.lru.get key).2).entries.length ≤ cap
    rw [hperm.length_eq]
    exact hlc
  · show ((st.lru.get key).2).maxLength = cap
    rw [glruGet_maxLength]
    exact hlm

/-- Deleting a statement preserves the manager invariant. -/
theorem delete_inv (cap : Nat) (st : ConnectionState) (key : String)
    (inv : MgrInv cap st) :
    MgrInv cap { st with statements := mapDelete st.statements key } := by
  obtain ⟨hsn, hln, hlc, hsc, hlm⟩ := inv
  refine ⟨?_, hln, hlc, ?_, hlm⟩
  · exact List.Sublist.nodup (keysOf_mapDelete_sublist _ _) hsn
  · show (mapDelete st.statements key).length ≤ cap
    have := List.length_filter_le (fun e => !(e.1 == key)) st.statements
    unfold mapDelete
    omega

/-- `executeQuery` preserves the manager invariant on every completed
call. -/
theorem executeQuery_inv (cfg : MgrConfig) (exec : Executor) :
    ∀ (fuel : Nat) (st : ConnectionState) (qn : Option String) (qt : String)
      (vals : List JsValue) (am : Bool)
      (out : ConnectionState × List String × Except String QueryRes),
      MgrInv cfg.maxPreparedStatements st →
      executeQuery cfg exec fuel st qn qt vals am = some out →
      MgrInv cfg.maxPreparedStatements out.1 := by
  intro fuel
  induction fuel with
  | zero =>
      intro st qn qt vals am out hinv heq
      simp [executeQuery] at heq
  | succ fuel ih =>
      intro st qn qt vals am out hinv heq
      simp only [executeQuery] at heq
      by_cases hsc : (qn.isNone || vals.length == 0) = true
      · rw [if_pos hsc] at heq
        injection heq with heq
        rw [← heq]
        exact hinv
      · rw [if_neg hsc] at heq
        cases hget : mapGet st.statements (cfg.genKey qt vals.length) with
        | some stmt =>
            rw [hget] at heq
            simp only [] at heq
            rcases hrun : runExecuteStep exec stmt vals am with ⟨txt, step⟩
            rw [hrun] at heq
            cases step with
            | done res =>
                simp only [] at heq
                injection heq with heq
                rw [← heq]
                exact touch_inv _ st _ hinv
            | retry =>
                simp only [] at heq
                cases hrec : executeQuery cfg exec fuel
                    { st with
                        lru := (st.lru.get (cfg.genKey qt vals.length)).2,
                        statements :=
                          mapDelete st.statements (cfg.genKey qt vals.length) }
                    qn qt vals am with
                | none => rw [hrec] at heq; cases heq
                | some out2 =>
                    rcases out2 with ⟨st3, tr, res⟩
                    rw [hrec] at heq
                    simp only [] at heq
                    injection heq with heq
                    rw [← heq]
                    have hinv2 := delete_inv _ _ (cfg.genKey qt vals.length)
                      (touch_inv _ st (cfg.genKey qt vals.length) hinv)
                    exact ih _ qn qt vals am (st3, tr, res) hinv2 hrec
        | none =>
            rw [hget] at heq
            simp only [] at heq
            cases hp : exec ("PREPARE " ++ mintedName cfg st.counter ++ " AS " ++ qt) [] with
            | error e =>
                rw [hp] at heq
                simp only [] at heq
                injection heq with heq
                rw [← heq]
                obtain ⟨hsn, hln, hlc, hscap, hlm⟩ := hinv
                exact ⟨hsn, hln, hlc, hscap, hlm⟩
            | ok pr =>
                rw [hp] at heq
                simp only [] at heq
                rcases hie : insertAndEvict cfg.maxPreparedStatements
                    { st with counter := st.counter + 1 }
                    (cfg.genKey qt vals.length)
                    ⟨mintedName cfg st.counter, qt, vals.length⟩ with ⟨st3, ev⟩
                rw [hie] at heq
                simp only [] at heq
                have hinv3 : MgrInv cfg.maxPreparedStatements st3 := by
                  have h4 := insertAndEvict_inv cfg.maxPreparedStatements
                    { st with counter := st.counter + 1 }
                    (cfg.genKey qt vals.length)
                    ⟨mintedName cfg st.counter, qt, vals.length⟩
                    (by
                      obtain ⟨hsn, hln, hlc, hscap, hlm⟩ := hinv
                      exact ⟨hsn, hln, hlc, hscap, hlm⟩)
                    hget
                  rw [hie] at h4
                  exact h4
                rcases hrun : runExecuteStep exec
                    ⟨mintedName cfg st.counter, qt, vals.length⟩ vals am with ⟨txt, step⟩
                rw [hrun] at heq
                cases step with
                | done res =>
                    simp only [] at heq
                    injection heq with heq
                    rw [← heq]
                    exact hinv3
                | retry =>
                    simp only [] at heq
                    cases hrec : executeQuery cfg exec fuel
                        { st3 with statements :=
                            mapDelete st3.statements (cfg.genKey qt vals.length) }
                        qn qt vals am with
                    | none => rw [hrec] at heq; cases heq
                    | some out2 =>
                        rcases out2 with ⟨st4, tr, res⟩
                        rw [hrec] at heq
                        simp only [] at heq
                        injection heq with heq
                        rw [← heq]
                        exact ih _ qn qt vals am (st4, tr, res)
                          (delete_inv _ _ _ hinv3) hrec

/-- `runCalls` preserves the manager invariant. -/
theorem runCalls_inv (cfg : MgrConfig) (exec : Executor) (fuel : Nat) :
    ∀ (calls : List CallSpec) (st : ConnectionState)
      (out : ConnectionState × List String),
      MgrInv cfg.maxPreparedStatements st →
      runCalls cfg exec fuel st calls = some out →
      MgrInv cfg.maxPreparedStatements out.1 := by
  intro calls
  induction calls with
  | nil =>
      intro st out hinv heq
      simp only [runCalls] at heq
      injection heq with heq
      rw [← heq]
      exact hinv
  | cons c rest ih =>
      intro st out hinv heq
      simp only [runCalls] at heq
      cases h1 : executeQuery cfg exec fuel st c.queryName c.queryText c.values c.arrayMode with
      | none => rw [h1] at heq; cases heq
      | some out1 =>
          rcases out1 with ⟨st2, tr, res⟩
          rw [h1] at heq
          simp only [] at heq
          cases h2 : runCalls cfg exec fuel st2 rest with
          | none => rw [h2] at heq; cases heq
          | some out2 =>
              rcases out2 with ⟨st3, tr2⟩
              rw [h2] at heq
              simp only [] at heq
              injection heq with heq
              rw [← heq]
              have hinv2 := executeQuery_inv cfg exec fuel st c.queryName
                c.queryText c.values c.arrayMode (st2, tr, res) hinv h1
              exact ih st2 (st3, tr2) hinv2 h2

/-- Updating a topic makes the new list retrievable. -/
theorem topicsGet_topicsSet_self (ts : List (String × List Nat))
    (t : String) (ids : List Nat) :
    topicsGet (topicsSet ts t ids) t = some ids := by
  by_cases h : ts.any (fun e => e.1 == t)
  · unfold topicsGet topicsSet
    rw [if_pos h]
    induction ts with
    | nil => simp at h
    | cons hd tl ih =>
        by_cases h1 : (hd.1 == t) = true
        · rw [List.map_cons, if_pos h1,
            show List.find? (fun e => e.1 == t) ((t, ids) :: List.map _ tl)
                = some (t, ids) from List.find?_cons_of_pos _ (by simp)]
          rfl
        · simp only [List.any_cons, h1, Bool.false_or] at h
          rw [List.map_cons, if_neg h1,
            show List.find? (fun e => e.1 == t)
                  (hd :: List.map (fun e => if (e.1 == t) = true then (t, ids) else e) tl)
                = List.find? (fun e => e.1 == t)
                  (List.map (fun e => if (e.1 == t) = true then (t, ids) else e) tl) from
              List.find?_cons_of_neg _ (by simpa using h1)]
          exact ih h
  · unfold topicsGet topicsSet
    rw [if_neg h]
    have hnone : List.find? (fun e => e.1 == t) ts = none := by
      rw [List.find?_eq_none]
      intro e he hb
      exact h (List.any_eq_true.mpr ⟨e, he, hb⟩)
    rw [List.find?_append, hnone]
    simp

/-- Updating a topic leaves other lookups unchanged. -/
theorem topicsGet_topicsSet_ne (ts : List (String × List Nat))
    (t : String) (ids : List Nat) (t2 : String) (h : t2 ≠ t) :
    topicsGet (topicsSet ts t ids) t2 = topicsGet ts t2 := by
  unfold topicsSet
  by_cases hany : ts.any (fun e => e.1 == t)
  · rw [if_pos hany]
    unfold topicsGet
    clear hany
    induction ts with
    | nil => rfl
    | cons hd tl ih =>
        by_cases h1 : (hd.1 == t) = true
        · have hhd : hd.1 = t := by simpa using h1
          have hne2 : ((t, ids).1 == t2) = false := by
            simp
            exact fun hc => h hc.symm
          have hne3 : (hd.1 == t2) = false := by
            rw [hhd]
            simp
            exact fun hc => h hc.symm
          rw [List.map_cons, if_pos h1,
            show List.find? (fun e => e.1 == t2) ((t, ids) :: List.map _ tl)
                = List.find? (fun e => e.1 == t2) (List.map _ tl) from
              List.find?_cons_of_neg _ (by simp [hne2]),
            show List.find? (fun e => e.1 == t2) (hd :: tl)
                = List.find? (fun e => e.1 == t2) tl from
              List.find?_cons_of_neg _ (by simp [hne3])]
          exact ih
        · by_cases h2 : (hd.1 == t2) = true
          · rw [List.map_cons, if_neg h1,
              show List.find? (fun e => e.1 == t2) (hd :: List.map _ tl)
                  = some hd from List.find?_cons_of_pos _ h2,
              show List.find? (fun e => e.1 == t2) (hd :: tl) = some hd from
                List.find?_cons_of_pos _ h2]
          · rw [List.map_cons, if_neg h1,
              show List.find? (fun e => e.1 == t2) (hd :: List.map _ tl)
                  = List.find? (fun e => e.1 == t2) (List.map _ tl) from
                List.find?_cons_of_neg _ (by simpa using h2),
              show List.find? (fun e => e.1 == t2) (hd :: tl)
                  = List.find? (fun e => e.1 == t2) tl from
                List.find?_cons_of_neg _ (by simpa using h2)]
            exact ih
  · rw [if_neg hany]
    unfold topicsGet
    rw [List.find?_append,
      show List.find? (fun e => e.1 == t2) [(t, ids)] = none by
        simp
        exact fun hc => h hc.symm]
    cases List.find? (fun e => e.1 == t2) ts <;> rfl

/-- Deleting a topic removes it. -/
theorem topicsGet_topicsDelete_self (ts : List (String × List Nat))
    (t : String) : topicsGet (topicsDelete ts t) t = none := by
  unfold topicsGet topicsDelete
  rw [Option.map_eq_none', List.find?_eq_none]
  intro e he
  have := (List.mem_filter.mp he).2
  simp at this
  simp [this]

/-- Deleting a topic leaves other lookups unchanged. -/
theorem topicsGet_topicsDelete_ne (ts : List (String × List Nat))
    (t : String) (t2 : String) (h : t2 ≠ t) :
    topicsGet (topicsDelete ts t) t2 = topicsGet ts t2 := by
  unfold topicsGet topicsDelete
  induction ts with
  | nil => rfl
  | cons hd tl ih =>
      by_cases h1 : (hd.1 == t) = true
      · have hhd : hd.1 = t := by simpa using h1
        rw [List.filter_cons_of_neg (by simp [h1]),
          show List.find? (fun e => e.1 == t2) (hd :: tl)
              = List.find? (fun e => e.1 == t2) tl from
            List.find?_cons_of_neg _ (by
              rw [hhd]
              simp
              exact fun hc => h hc.symm)]
        exact ih
      · by_cases h2 : (hd.1 == t2) = true
        · rw [List.filter_cons_of_pos (by simpa using h1),
            show List.find? (fun e => e.1 == t2)
                  (hd :: List.filter (fun e => !(e.1 == t)) tl) = some hd from
              List.find?_cons_of_pos _ h2,
            show List.find? (fun e => e.1 == t2) (hd :: tl) = some hd from
              List.find?_cons_of_pos _ h2]
        · rw [List.filter_cons_of_pos (by simpa using h1),
            show List.find? (fun e => e.1 == t2)
                  (hd :: List.filter (fun e => !(e.1 == t)) tl)
                = List.find? (fun e => e.1 == t2)
                    (List.filter (fun e => !(e.1 == t)) tl) from
              List.find?_cons_of_neg _ (by simpa using h2),
            show List.find? (fun e => e.1 == t2) (hd :: tl)
                = List.find? (fun e => e.1 == t2) tl from
              List.find?_cons_of_neg _ (by simpa using h2)]
          exact ih

/-- A lookup in a topic map extended on the right. -/
theorem topicsGet_append_single (ts : List (String × List Nat))
    (t : String) (ids : List Nat) (t2 : String) :
    topicsGet (ts ++ [(t, ids)]) t2
      = (topicsGet ts t2).or (if t2 = t then some ids else none) := by
  unfold topicsGet
  rw [List.find?_append]
  cases hf : List.find? (fun e => e.1 == t2) ts with
  | some e => rfl
  | none =>
      by_cases h : t2 = t
      · rw [show List.find? (fun e => e.1 == t2) [(t, ids)] = some (t, ids) from
          List.find?_cons_of_pos _ (by simp [h])]
        simp [h]
      · rw [show List.find? (fun e => e.1 == t2) [(t, ids)] = none by
          simp
          exact fun hc => h hc.symm]
        simp [h]

/-- `subscribe` preserves the subscriber invariant. -/
theorem subSubscribe_inv (st : SubState) (t : String) (inv : SubInv st)
    (out : SubState × Nat × List SubAction)
    (h : subSubscribe st t = Except.ok out) : SubInv out.1 := by
  unfold subSubscribe at h
  by_cases halive : (!st.alive) = true
  · rw [if_pos halive] at h
    cases h
  · rw [if_neg halive] at h
    cases hget : topicsGet st.topics t with
    | none =>
        rw [hget] at h
        injection h with h
        rw [← h]
        intro t2 ids2 hg2
        rw [topicsGet_append_single] at hg2
        cases hpre : topicsGet st.topics t2 with
        | some ids0 =>
            rw [hpre] at hg2
            exact List.mem_append_left _ (inv t2 ids0 hpre)
        | none =>
            rw [hpre] at hg2
            by_cases ht2 : t2 = t
            · exact List.mem_append_right _ (by simp [ht2])
            · simp [ht2] at hg2
    | some ids =>
        rw [hget] at h
        injection h with h
        rw [← h]
        intro t2 ids2 hg2
        by_cases ht2 : t2 = t
        · exact ht2 ▸ inv t ids hget
        · rw [show topicsGet (topicsSet st.topics t (ids ++ [st.nextId])) t2
              = topicsGet st.topics t2 from
            topicsGet_topicsSet_ne _ _ _ _ ht2] at hg2
          exact inv t2 ids2 hg2

/-- `doFinally` preserves the subscriber invariant. -/
theorem doFinally_inv (st : SubState) (id : Nat) (inv : SubInv st) :
    SubInv (doFinally st id).1 := by
  unfold doFinally
  cases hc : consumersGet st.consumers id with
  | none => exact inv
  | some c =>
      dsimp only
      by_cases hfin : c.finished = true
      · rw [if_pos hfin]
        exact inv
      · rw [if_neg hfin]
        cases hget : topicsGet st.topics c.topic with
        | none => exact inv
        | some ids =>
            dsimp only
            by_cases hmem : id ∈ ids
            · rw [if_pos hmem]
              by_cases hemp : (ids.erase id).isEmpty = true
              · rw [if_pos hemp]
                unfold subUnlisten
                dsimp only
                by_cases hcont : st.unlisteners.contains c.topic = true
                · rw [if_pos hcont]
                  intro t2 ids2 hg2
                  dsimp only at hg2
                  by_cases ht2 : t2 = c.topic
                  · rw [ht2, topicsGet_topicsDelete_self] at hg2
                    cases hg2
                  · rw [topicsGet_topicsDelete_ne _ _ _ ht2] at hg2
                    have := inv t2 ids2 hg2
                    exact List.mem_filter.mpr ⟨this, by simp [ht2]⟩
                · rw [if_neg hcont]
                  intro t2 ids2 hg2
                  dsimp only at hg2
                  by_cases ht2 : t2 = c.topic
                  · rw [ht2, topicsGet_topicsDelete_self] at hg2
                    cases hg2
                  · rw [topicsGet_topicsDelete_ne _ _ _ ht2] at hg2
                    exact inv t2 ids2 hg2
              · rw [if_neg hemp]
                intro t2 ids2 hg2
                dsimp only at hg2
                by_cases ht2 : t2 = c.topic
                · exact ht2 ▸ inv c.topic ids hget
                · rw [topicsGet_topicsSet_ne _ _ _ _ ht2] at hg2
                  exact inv t2 ids2 hg2
            · rw [if_neg hmem]
              exact inv

/-- `doFinally` never activates a topic. -/
theorem doFinally_topics_none (st : SubState) (id : Nat) (t : String)
    (h : topicsGet st.topics t = none) :
    topicsGet (doFinally st id).1.topics t = none := by
  unfold doFinally
  cases hc : consumersGet st.consumers id with
  | none => exact h
  | some c =>
      dsimp only
      by_cases hfin : c.finished = true
      · rw [if_pos hfin]
        exact h
      · rw [if_neg hfin]
        cases hget : topicsGet st.topics c.topic with
        | none => exact h
        | some ids =>
            dsimp only
            have hne : t ≠ c.topic := by
              intro he
              rw [he, hget] at h
              cases h
            by_cases hmem : id ∈ ids
            · rw [if_pos hmem]
              by_cases hemp : (ids.erase id).isEmpty = true
              · rw [if_pos hemp]
                unfold subUnlisten
                dsimp only
                by_cases hcont : st.unlisteners.contains c.topic = true
                · rw [if_pos hcont]
                  dsimp only
                  rw [topicsGet_topicsDelete_ne _ _ _ hne]
                  exact h
                · rw [if_neg hcont]
                  dsimp only
                  rw [topicsGet_topicsDelete_ne _ _ _ hne]
                  exact h
              · rw [if_neg hemp]
                dsimp only
                rw [topicsGet_topicsSet_ne _ _ _ _ hne]
                exact h
            · rw [if_neg hmem]
              exact h

/-- The release topic loop preserves the invariant. -/
theorem releaseTopicLoop_inv (t : String) :
    ∀ (fuel i : Nat) (st : SubState) (acc : List SubAction),
      SubInv st → SubInv (releaseTopicLoop t fuel i st acc).1 := by
  intro fuel
  induction fuel with
  | zero => intro i st acc inv; exact inv
  | succ fuel ih =>
      intro i st acc inv
      rw [releaseTopicLoop]
      cases hg : ((topicsGet st.topics t).getD []).get? i with
      | none => exact inv
      | some id =>
          dsimp only
          exact ih (i + 1) _ _ (doFinally_inv st id inv)

/-- The release topic loop never activates a topic. -/
theorem releaseTopicLoop_topics_none (t t2 : String) :
    ∀ (fuel i : Nat) (st : SubState) (acc : List SubAction),
      topicsGet st.topics t2 = none →
      topicsGet (releaseTopicLoop t fuel i st acc).1.topics t2 = none := by
  intro fuel
  induction fuel with
  | zero => intro i st acc h; exact h
  | succ fuel ih =>
      intro i st acc h
      rw [releaseTopicLoop]
      cases hg : ((topicsGet st.topics t).getD []).get? i with
      | none => exact h
      | some id =>
          dsimp only
          exact ih (i + 1) _ _ (doFinally_topics_none st id t2 h)

/-- `releaseStep` deactivates its topic and keeps others deactivated. -/
theorem releaseStep_topics_none (p : SubState × List SubAction)
    (t t2 : String) (h : t2 = t ∨ topicsGet p.1.topics t2 = none) :
    topicsGet (releaseStep p t).1.topics t2 = none := by
  show topicsGet
      (topicsDelete
        (releaseTopicLoop t ((topicsGet p.1.topics t).getD []).length 0 p.1 p.2).1.topics
        t) t2 = none
  rcases h with h | h
  · rw [h, topicsGet_topicsDelete_self]
  · by_cases ht2 : t2 = t
    · rw [ht2, topicsGet_topicsDelete_self]
    · rw [topicsGet_topicsDelete_ne _ _ _ ht2]
      exact releaseTopicLoop_topics_none t t2 _ 0 p.1 p.2 h

/-- After folding `releaseStep` over a key cover, no topic is active. -/
theorem foldl_releaseStep_none :
    ∀ (ks : List String) (p : SubState × List SubAction),
      (∀ t, topicsGet p.1.topics t ≠ none → t ∈ ks) →
      ∀ t, topicsGet ((ks.foldl releaseStep p).1).topics t = none := by
  intro ks
  induction ks with
  | nil =>
      intro p h t
      by_contra hne
      exact absurd (h t hne) (List.not_mem_nil t)
  | cons k rest ih =>
      intro p h t
      rw [List.foldl_cons]
      apply ih (releaseStep p k)
      intro t2 hne2
      by_cases hk : t2 = k
      · exact absurd (releaseStep_topics_none p k t2 (Or.inl hk)) hne2
      · have hpre : topicsGet p.1.topics t2 ≠ none := by
          intro hnone
          exact hne2 (releaseStep_topics_none p k t2 (Or.inr hnone))
        rcases List.mem_cons.mp (h t2 hpre) with hh | hh
        · exact absurd hh hk
        · exact hh

/-- `subRelease` preserves the subscriber invariant. -/
theorem subRelease_inv (st : SubState) (inv : SubInv st) :
    SubInv (subRelease st).1 := by
  unfold subRelease
  by_cases halive : st.alive = true
  · rw [if_pos halive]
    intro t2 ids2 hg2
    dsimp only at hg2
    have hcov : ∀ t,
        topicsGet ({ st with alive := false } : SubState).topics t ≠ none →
        t ∈ ({ st with alive := false } : SubState).topics.map Prod.fst := by
      intro t hne
      cases hgt : topicsGet ({ st with alive := false } : SubState).topics t with
      | none => exact absurd hgt hne
      | some ids =>
          unfold topicsGet at hgt
          rcases Option.map_eq_some'.mp hgt with ⟨e, he, hsnd⟩
          have hmem := List.mem_of_find?_eq_some he
          have hb := List.find?_some he
          have het : e.1 = t := by simpa using hb
          exact het ▸ List.mem_map_of_mem Prod.fst hmem
    have hnone := foldl_releaseStep_none
      (({ st with alive := false } : SubState).topics.map Prod.fst)
      (({ st with alive := false } : SubState), []) hcov t2
    dsimp only at hnone
    rw [hnone] at hg2
    cases hg2
  · rw [if_neg halive]
    exact inv

/-- `subStep` preserves the subscriber invariant. -/
theorem subStep_inv (st : SubState) (e : SubEvent) (inv : SubInv st) :
    SubInv (subStep st e).1 := by
  cases e with
  | subscribe t =>
      simp only [subStep]
      cases hs : subSubscribe st t with
      | ok out =>
          rcases out with ⟨st2, id2, acts⟩
          exact subSubscribe_inv st t inv (st2, id2, acts) hs
      | error msg => exact inv
  | detach id => exact doFinally_inv st id inv
  | release => exact subRelease_inv st inv

/-- Every state reached from the fresh subscriber satisfies the
invariant. -/
theorem subRun_inv (events : List SubEvent) :
    ∀ st : SubState, SubInv st → SubInv (subRun st events).1 := by
  induction events with
  | nil => intro st inv; exact inv
  | cons e rest ih =>
      intro st inv
      rw [subRun]
      dsimp only
      exact ih _ (subStep_inv st e inv)

/-- A list whose erase-by-member is empty is that singleton. -/
theorem eq_singleton_of_mem_erase_nil {ids : List Nat} {id : Nat}
    (hin : id ∈ ids) (h : ids.erase id = []) : ids = [id] := by
  cases ids with
  | nil => cases hin
  | cons x xs =>
      cases xs with
      | nil =>
          rcases List.mem_singleton.mp hin with rfl
          rfl
      | cons y ys =>
          have hlen := List.length_erase_of_mem hin
          rw [h] at hlen
          simp at hlen

/-- The detach path emits the unlisten invocation exactly for the last
unfinished consumer of a topic, and then emits exactly one. -/
theorem doFinally_unlisten_char (st : SubState) (id : Nat) (t : String)
    (inv : SubInv st) :
    ((∃ c : Consumer, consumersGet st.consumers id = some c ∧
        c.finished = false ∧ c.topic = t ∧ topicsGet st.topics t = some [id]) →
      (doFinally st id).2 = [.iterFinished id, .unlistenInvoked t]) ∧
    (SubAction.unlistenInvoked t ∈ (doFinally st id).2 ↔
      ∃ c : Consumer, consumersGet st.consumers id = some c ∧
        c.finished = false ∧ c.topic = t ∧ topicsGet st.topics t = some [id]) := by
  have hpart2 : (∃ c : Consumer, consumersGet st.consumers id = some c ∧
      c.finished = false ∧ c.topic = t ∧ topicsGet st.topics t = some [id]) →
      (doFinally st id).2 = [.iterFinished id, .unlistenInvoked t] := by
    rintro ⟨c, hc, hfin, htop, hget⟩
    unfold doFinally
    rw [hc]
    dsimp only
    rw [if_neg (by simp [hfin]), htop, hget]
    dsimp only
    rw [if_pos (List.mem_singleton.mpr rfl)]
    rw [if_pos (by simp)]
    unfold subUnlisten
    dsimp only
    rw [if_pos (show st.unlisteners.contains t = true from
      List.elem_iff.mpr (inv t [id] hget))]
  refine ⟨hpart2, ?_, fun h => by rw [hpart2 h]; simp⟩
  intro hmem
  unfold doFinally at hmem
  cases hc : consumersGet st.consumers id with
  | none =>
      rw [hc] at hmem
      simp at hmem
  | some c =>
      rw [hc] at hmem
      dsimp only at hmem
      by_cases hfin : c.finished = true
      · rw [if_pos hfin] at hmem
        simp at hmem
      · rw [if_neg hfin] at hmem
        cases hget : topicsGet st.topics c.topic with
        | none =>
            rw [hget] at hmem
            simp at hmem
        | some ids =>
            rw [hget] at hmem
            dsimp only at hmem
            by_cases hin : id ∈ ids
            · rw [if_pos hin] at hmem
              by_cases hemp : (ids.erase id).isEmpty = true
              · rw [if_pos hemp] at hmem
                unfold subUnlisten at hmem
                dsimp only at hmem
                by_cases hcont : st.unlisteners.contains c.topic = true
                · rw [if_pos hcont] at hmem
                  simp at hmem
                  have hids : ids = [id] :=
                    eq_singleton_of_mem_erase_nil hin (List.isEmpty_iff.mp hemp)
                  exact ⟨c, by simp [hc], by simpa using hfin, hmem.symm,
                    by rw [hmem, ← hids]; exact hget⟩
                · rw [if_neg hcont] at hmem
                  simp at hmem
              · rw [if_neg hemp] at hmem
                simp at hmem
            · rw [if_neg hin] at hmem
              simp at hmem

/-! ## Claim C1: nested-transaction state machine -/

/-- C1 counterexample: at transaction level 0 with no pre-existing
transaction, the PGlite backend's `with_transaction` does not issue
`BEGIN`; it delegates to the driver's native transaction primitive. -/
theorem C1_counterexample :
    (pgliteWithTransaction 0 false (fun _ => (Except.ok 0 : Except Nat Nat)) none).trace
        = [PgAction.nativeTx] ∧
    PgAction.stmt "begin" ∉
      (pgliteWithTransaction 0 false (fun _ => (Except.ok 0 : Except Nat Nat)) none).trace ∧
    PgAction.stmt "BEGIN" ∉
      (pgliteWithTransaction 0 false (fun _ => (Except.ok 0 : Except Nat Nat)) none).trace := by
  refine ⟨rfl, ?_, ?_⟩ <;> decide

/-- C1 (amended): `with_transaction` follows the claimed table — level 0
with no pre-existing transaction gives BEGIN/COMMIT/ROLLBACK, level 0 in
pre-existing mode gives the `tx` savepoint, level N ≥ 1 the `txN`
savepoint, with the callback at level N+1 — for the node-postgres
backend in every case, and for the PGlite backend in every case except
level 0 with no pre-existing transaction, where PGlite delegates to the
driver's native transaction primitive instead of issuing those
statements. -/
theorem C1_amended {ε α : Type} (a : α) (e : ε) (rb : Option ε) :
    (npWithTransaction 0 false (fun _ => (Except.ok a : Except ε α)) rb
        = ⟨[.stmt "begin", .stmt "commit"], 1, .ok a⟩) ∧
    (npWithTransaction 0 false (fun _ => (Except.error e : Except ε α)) rb
        = ⟨[.stmt "begin", .stmt "rollback"], 1, .error e⟩) ∧
    (npWithTransaction 0 true (fun _ => (Except.ok a : Except ε α)) rb
        = ⟨[.stmt "savepoint tx", .stmt "release savepoint tx"], 1, .ok a⟩) ∧
    (npWithTransaction 0 true (fun _ => (Except.error e : Except ε α)) rb
        = ⟨[.stmt "savepoint tx", .stmt "rollback to savepoint tx"], 1, .error e⟩) ∧
    (∀ n : Nat, ∀ pre : Bool,
      npWithTransaction (n + 1) pre (fun _ => (Except.ok a : Except ε α)) rb
        = ⟨[.stmt ("savepoint tx" ++ toString (n + 1)),
            .stmt ("release savepoint tx" ++ toString (n + 1))], n + 2, .ok a⟩) ∧
    (∀ n : Nat, ∀ pre : Bool,
      npWithTransaction (n + 1) pre (fun _ => (Except.error e : Except ε α)) rb
        = ⟨[.stmt ("savepoint tx" ++ toString (n + 1)),
            .stmt ("rollback to savepoint tx" ++ toString (n + 1))], n + 2, .error e⟩) ∧
    (∀ out : Except ε α,
      pgliteWithTransaction 0 false (fun _ => out) rb = ⟨[.nativeTx], 1, out⟩) ∧
    (pgliteWithTransaction 0 true (fun _ => (Except.ok a : Except ε α)) rb
        = ⟨[.stmt "SAVEPOINT tx", .stmt "RELEASE SAVEPOINT tx"], 1, .ok a⟩) ∧
    (pgliteWithTransaction 0 true (fun _ => (Except.error e : Except ε α)) rb
        = ⟨[.stmt "SAVEPOINT tx", .stmt "ROLLBACK TO SAVEPOINT tx"], 1, .error e⟩) ∧
    (∀ n : Nat, ∀ pre : Bool,
      pgliteWithTransaction (n + 1) pre (fun _ => (Except.ok a : Except ε α)) rb
        = ⟨[.stmt ("SAVEPOINT tx" ++ toString (n + 1)),
            .stmt ("RELEASE SAVEPOINT tx" ++ toString (n + 1))], n + 2, .ok a⟩) ∧
    (∀ n : Nat, ∀ pre : Bool,
      pgliteWithTransaction (n + 1) pre (fun _ => (Except.error e : Except ε α)) rb
        = ⟨[.stmt ("SAVEPOINT tx" ++ toString (n + 1)),
            .stmt ("ROLLBACK TO SAVEPOINT tx" ++ toString (n + 1))], n + 2, .error e⟩) := by
  cases rb <;>
    exact ⟨rfl, rfl, rfl, rfl, fun n pre => rfl, fun n pre => rfl,
      fun out => by cases out <;> rfl, rfl, rfl, fun n pre => rfl, fun n pre => rfl⟩

/-! ## Claim C2: settings-application query text -/

/-- C2 counterexample: the pooled-TCP (node-postgres) backend issues its
single settings query in lowercase, so its text is not the claimed
uppercase `SELECT … FROM …` string. -/
theorem C2_counterexample :
    (npWithPgClient (some [("a", some "b")]) false
        (fun _ => (Except.ok 0 : Except Nat Nat)) none).trace
      = [PgAction.stmt "begin",
         PgAction.queryJson npSetConfigText [("a", "b")],
         PgAction.stmt "commit"] ∧
    npSetConfigText ≠
      "SELECT set_config(el->>0, el->>1, true) FROM json_array_elements($1::json) el" := by
  exact ⟨rfl, by decide⟩

/-- C2 (amended): with a settings map holding at least one non-null
entry, each backend applies the settings in exactly one JSON-array
parameterized query — text
`select set_config(el->>0, el->>1, true) from json_array_elements($1::json) el`
(lowercase) for pooled-TCP, the same text uppercase for tagged-template,
and the uppercase text with `false` for WASM — whose parameter is the
array of non-null `[key, value]` pairs (the WASM backend additionally
issues a restore query of the same shape on exit). -/
theorem C2_amended {ε α : Type} (s : List (String × Option String))
    (h : settingsEntries s ≠ []) :
    (∀ pre : Bool, ∀ cb : Nat → Except ε α, ∀ rb : Option ε,
      ((npWithPgClient (some s) pre cb rb).trace.filter isSetConfigAct)
        = [.queryJson npSetConfigText (settingsEntries s)]) ∧
    (∀ cb : Except ε α,
      ((pgjsWithPgClient (some s) cb).trace.filter isSetConfigAct)
        = [.queryJson pgjsSetConfigText (settingsEntries s)]) ∧
    (∀ orig : String → Option String, ∀ cb : Except ε α,
      (pgliteWithPgClient (some s) orig cb).trace
        = [PgAction.runExclusive] ++ pgliteProbeActions s
            ++ [.queryJson pgliteSetConfigText (settingsEntries s)]
            ++ pgliteRestoreActions s (pgliteOriginalSettings s orig)) := by
  have hl : 0 < (settingsEntries s).length := List.length_pos.mpr h
  have hs : s ≠ [] := by
    intro hnil
    rw [hnil] at h
    exact h rfl
  have hsl : 0 < s.length := List.length_pos.mpr hs
  refine ⟨?_, ?_, ?_⟩
  · intro pre cb rb
    cases hcb : cb 1 with
    | ok a =>
        cases rb <;>
          simp [npWithPgClient, hl, hcb, isSetConfigAct]
    | error e =>
        cases rb <;>
          simp [npWithPgClient, hl, hcb, isSetConfigAct]
  · intro cb
    simp [pgjsWithPgClient, hsl, hl, isSetConfigAct]
  · intro orig cb
    simp [pgliteWithPgClient, hsl, pgliteApplyActions, hl]

/-- C2 witness: the amended statement applied to a concrete one-entry
settings map for each backend. -/
theorem C2_amended_witness :
    ((npWithPgClient (ε := Nat) (α := Nat) (some [("a", some "b")]) false
        (fun _ => Except.ok 0) none).trace.filter isSetConfigAct)
      = [.queryJson npSetConfigText [("a", "b")]] ∧
    ((pgjsWithPgClient (α := Nat) (ε := Nat) (some [("a", some "b")])
        (Except.ok 0)).trace.filter isSetConfigAct)
      = [.queryJson pgjsSetConfigText [("a", "b")]] ∧
    (pgliteWithPgClient (α := Nat) (ε := Nat) (some [("a", some "b")])
        (fun _ => none) (Except.ok 0)).trace
      = [PgAction.runExclusive] ++ pgliteProbeActions [("a", some "b")]
          ++ [.queryJson pgliteSetConfigText [("a", "b")]]
          ++ pgliteRestoreActions [("a", some "b")]
              (pgliteOriginalSettings [("a", some "b")] (fun _ => none)) := by
  have h := C2_amended (ε := Nat) (α := Nat) [("a", some "b")] (by decide)
  exact ⟨h.1 false (fun _ => Except.ok 0) none, h.2.1 (Except.ok 0),
    h.2.2 (fun _ => none) (Except.ok 0)⟩

/-! ## Claim C3: original error survives rollback failure -/

/-- C3 counterexample: in the node-postgres settings envelope, when the
callback throws `0` and the rollback statement throws `1`, the caller
receives the rollback error `1`, not the original `0`. -/
theorem C3_counterexample :
    (npWithPgClient (some [("a", some "b")]) false
        (fun _ => (Except.error 0 : Except Nat Nat)) (some 1)).result
      = Except.error 1 ∧
    (Except.error 1 : Except Nat Nat) ≠ Except.error 0 := by
  exact ⟨rfl, by simp⟩

/-- C3 (amended): inside `with_transaction` (both explicit-SQL backends)
a failing rollback is caught and logged and the original callback error
propagates; in the node-postgres settings envelope, however, a failing
rollback statement replaces the original callback error. -/
theorem C3_amended {ε α : Type} (e e2 : ε) :
    (∀ lvl : Nat, ∀ pre : Bool,
      (npWithTransaction lvl pre (fun _ => (Except.error e : Except ε α)) (some e2)).result
        = Except.error e) ∧
    (∀ lvl : Nat, ∀ pre : Bool,
      (pgliteWithTransaction lvl pre (fun _ => (Except.error e : Except ε α)) (some e2)).result
        = Except.error e) ∧
    (∀ s : List (String × Option String), ∀ pre : Bool, settingsEntries s ≠ [] →
      (npWithPgClient (some s) pre (fun _ => (Except.error e : Except ε α)) (some e2)).result
        = Except.error e2) := by
  refine ⟨fun lvl pre => rfl, fun lvl pre => ?_, fun s pre h => ?_⟩
  · cases hc : (lvl == 0 && !pre) <;> simp [pgliteWithTransaction, hc]
  · have hl : 0 < (settingsEntries s).length := List.length_pos.mpr h
    simp [npWithPgClient, hl]

/-- C3 witness: the amended statement applied at level 2, in pre-existing
mode at level 0, and to a concrete settings map. -/
theorem C3_amended_witness :
    (npWithTransaction (ε := Nat) (α := Nat) 2 false (fun _ => Except.error 0) (some 1)).result
        = Except.error 0 ∧
    (pgliteWithTransaction (ε := Nat) (α := Nat) 0 true (fun _ => Except.error 0) (some 1)).result
        = Except.error 0 ∧
    (npWithPgClient (ε := Nat) (α := Nat) (some [("a", some "b")]) false
        (fun _ => Except.error 0) (some 1)).result = Except.error 1 := by
  have h := C3_amended (ε := Nat) (α := Nat) 0 1
  exact ⟨h.1 2 false, h.2.1 0 true, h.2.2 [("a", some "b")] false (by decide)⟩

/-! ## Claim C4: prepared-statement loss recovery -/

/-- C4: for a named query with non-empty values whose EXECUTE step fails
with an error message containing "does not exist", the manager removes
the cached entry for the statement key and retries `executeQuery` once,
re-preparing the statement under a fresh minted name; an EXECUTE error
whose message lacks that substring propagates to the caller unchanged. -/
theorem C4 (cfg : MgrConfig) (exec : Executor) (fuel : Nat)
    (st : ConnectionState) (qn queryText : String) (values : List JsValue)
    (arrayMode : Bool) (stmt : PreparedStatement) (msg : String)
    (prep r : QueryResult)
    (hv : values.length ≠ 0)
    (hhit : mapGet st.statements (cfg.genKey queryText values.length) = some stmt)
    (h1 : exec (executeText stmt values) [] = Except.error msg) :
    (containsSubstr msg "does not exist" = true →
      exec ("PREPARE " ++ mintedName cfg st.counter ++ " AS " ++ queryText) []
          = Except.ok prep →
      exec (executeText ⟨mintedName cfg st.counter, queryText, values.length⟩ values) []
          = Except.ok r →
      st.statements.length ≤ cfg.maxPreparedStatements →
      ∃ stf : ConnectionState,
        executeQuery cfg exec (fuel + 2) st (some qn) queryText values arrayMode
          = some (stf,
              [executeText stmt values,
               "PREPARE " ++ mintedName cfg st.counter ++ " AS " ++ queryText,
               executeText ⟨mintedName cfg st.counter, queryText, values.length⟩ values],
              Except.ok (mapQueryResult r arrayMode)) ∧
          mapGet stf.statements (cfg.genKey queryText values.length)
            = some ⟨mintedName cfg st.counter, queryText, values.length⟩) ∧
    (containsSubstr msg "does not exist" = false →
      executeQuery cfg exec (fuel + 1) st (some qn) queryText values arrayMode
        = some ({ st with lru := (st.lru.get (cfg.genKey queryText values.length)).2 },
            [executeText stmt values], Except.error msg)) := by
  have hc : (((some qn).isNone || (values.length == 0)) = false) := by
    simp only [Option.isNone_some, Bool.false_or, beq_eq_false_iff_ne, ne_eq]
    exact hv
  constructor
  · intro hdne hprep hexec hcap
    have hdel : mapGet (mapDelete st.statements (cfg.genKey queryText values.length))
        (cfg.genKey queryText values.length) = none := mapGet_mapDelete_self _ _
    have hlen2 : (mapSet (mapDelete st.statements (cfg.genKey queryText values.length))
        (cfg.genKey queryText values.length)
        (⟨mintedName cfg st.counter, queryText, values.length⟩ : PreparedStatement)).length
          ≤ cfg.maxPreparedStatements := by
      rw [length_mapSet_of_absent _ _ _ hdel]
      have := length_mapDelete_lt st.statements _ stmt hhit
      omega
    refine ⟨⟨((st.lru.get (cfg.genKey queryText values.length)).2).set
          (cfg.genKey queryText values.length)
          ⟨mintedName cfg st.counter, queryText, values.length⟩,
        mapSet (mapDelete st.statements (cfg.genKey queryText values.length))
          (cfg.genKey queryText values.length)
          ⟨mintedName cfg st.counter, queryText, values.length⟩,
        st.counter + 1⟩, ?_, ?_⟩
    · simp only [executeQuery, hc, Bool.false_eq_true, if_false, hhit,
        runExecuteStep, h1, hdne, if_true, hdel, hprep, hexec, insertAndEvict,
        if_neg (Nat.not_lt.mpr hlen2)]
      rfl
    · exact mapGet_mapSet_self _ _ _
  · intro hno
    simp only [executeQuery, hc, Bool.false_eq_true, if_false, hhit,
      runExecuteStep, h1, hno]

/-- C4 witness: the theorem applied to a concrete lost-statement executor
(recovery path) and to a concrete unrelated-error executor (propagation
path). -/
theorem C4_witness :
    (∃ stf : ConnectionState,
      executeQuery cfgW execLost 3 stW (some "n") "q" [JsValue.other "7"] false
        = some (stf,
            ["EXECUTE lru_m_0(7)", "PREPARE lru_m_1 AS q", "EXECUTE lru_m_1(7)"],
            Except.ok (mapQueryResult ⟨[], none, none, none⟩ false)) ∧
        mapGet stf.statements "K" = some ⟨"lru_m_1", "q", 1⟩) ∧
    executeQuery cfgW execBroken 2 stW (some "n") "q" [JsValue.other "7"] false
      = some ({ stW with lru := (stW.lru.get "K").2 },
          ["EXECUTE lru_m_0(7)"], Except.error "syntax error") := by
  constructor
  · exact (C4 cfgW execLost 1 stW "n" "q" [JsValue.other "7"] false stmtW
      "prepared statement lru_m_0 does not exist"
      ⟨[], none, none, none⟩ ⟨[], none, none, none⟩
      (by decide) (by rfl) (by rfl)).1 (by rfl) (by rfl) (by rfl) (by decide)
  · exact (C4 cfgW execBroken 1 stW "n" "q" [JsValue.other "7"] false stmtW
      "syntax error" ⟨[], none, none, none⟩ ⟨[], none, none, none⟩
      (by decide) (by rfl) (by rfl)).2 (by rfl)

/-! ## Claim C5: LRU bound and eviction -/

set_option maxRecDepth 8192 in
/-- C5 counterexample: with cap 2 and the named-query sequence
Q1 Q2 Q1 Q3 Q4, the statement map ends holding Q1 and Q4, while the two
most-recently-used keys are Q4 and Q3: the eviction scan's membership
probes touch the LRU in map order, so Q3 is later evicted instead of
Q1.  The retained entries are therefore not "exactly the
most-recently-used" keys. -/
theorem C5_counterexample :
    (runCalls cfg5 execOk 2 (initialConnectionState 2)
        [mkCall "q1", mkCall "q2", mkCall "q1", mkCall "q3", mkCall "q4"]).map
        (fun p => keysOf p.1.statements)
      = some ["q1", "q4"] ∧
    mruKeys ["q1", "q2", "q1", "q3", "q4"] 2 = ["q4", "q3"] ∧
    "q3" ∈ mruKeys ["q1", "q2", "q1", "q3", "q4"] 2 ∧
    "q3" ∉ (["q1", "q4"] : List String) := by
  exact ⟨rfl, rfl, by decide, by decide⟩

/-- C5 (amended): after any sequence of completed `executeQuery` calls
the statement map holds at most `max_prepared_statements` entries; an
insertion that overflows the cap evicts exactly one statement — one
`DEALLOCATE` — whose key is in the statement map but absent from the
LRU, restoring the bound; an insertion within the cap evicts nothing.
The keys retained can differ from the most-recently-used keys because
the eviction scan's membership probes also touch the LRU. -/
theorem C5_amended (cfg : MgrConfig) (exec : Executor) (fuel : Nat) :
    (∀ (calls : List CallSpec) (out : ConnectionState × List String),
      runCalls cfg exec fuel
          (initialConnectionState cfg.maxPreparedStatements) calls = some out →
      out.1.statements.length ≤ cfg.maxPreparedStatements) ∧
    (∀ (st1 : ConnectionState) (key : String) (stmt : PreparedStatement),
      MgrInv cfg.maxPreparedStatements st1 →
      mapGet st1.statements key = none →
      st1.statements.length = cfg.maxPreparedStatements →
      ∃ vk vv st3,
        insertAndEvict cfg.maxPreparedStatements st1 key stmt
          = (st3, ["DEALLOCATE " ++ vv.name]) ∧
        (vk, vv) ∈ mapSet st1.statements key stmt ∧
        vk ∉ (st1.lru.set key stmt).keys ∧
        st3.statements = mapDelete (mapSet st1.statements key stmt) vk ∧
        st3.statements.length = cfg.maxPreparedStatements) ∧
    (∀ (st1 : ConnectionState) (key : String) (stmt : PreparedStatement),
      st1.statements.length < cfg.maxPreparedStatements →
      mapGet st1.statements key = none →
      (insertAndEvict cfg.maxPreparedStatements st1 key stmt).2 = []) := by
  refine ⟨?_, ?_, ?_⟩
  · intro calls out h
    have hinit : MgrInv cfg.maxPreparedStatements
        (initialConnectionState cfg.maxPreparedStatements) := by
      refine ⟨?_, ?_, ?_, ?_, rfl⟩ <;>
        simp [initialConnectionState, keysOf, GLRU.keys]
    exact (runCalls_inv cfg exec fuel calls _ out hinit h).stmtsCap
  · intro st1 key stmt inv hfresh hcap
    obtain ⟨hsn, hln, hlc, hsc, hlm⟩ := inv
    have hsn2 : (keysOf (mapSet st1.statements key stmt)).Nodup := by
      rw [keysOf_mapSet_of_absent _ _ _ hfresh]
      exact ((List.perm_append_singleton key (keysOf st1.statements)).symm).nodup
        (List.nodup_cons.mpr ⟨not_mem_keysOf_of_mapGet_none _ _ hfresh, hsn⟩)
    have hlen2 := length_mapSet_of_absent st1.statements key stmt hfresh
    have hlc2 : (st1.lru.set key stmt).entries.length ≤ cfg.maxPreparedStatements := by
      have h2 := glruSet_length_le st1.lru key stmt (by rw [hlm]; exact hlc)
      rwa [hlm] at h2
    have hln2 := glruSet_keys_nodup st1.lru key stmt hln
    have hex : ∃ e ∈ mapSet st1.statements key stmt,
        e.1 ∉ (st1.lru.set key stmt).keys := by
      apply exists_key_not_mem _ _ hsn2
      have hkl : (st1.lru.set key stmt).keys.length
          = (st1.lru.set key stmt).entries.length := by simp [GLRU.keys]
      omega
    rcases evictScan_found _ _ hln2 hex with
      ⟨vk, vv, lru3, heq3, hmem3, hvnot3, hperm3, hmax3⟩
    refine ⟨vk, vv,
      ⟨lru3, mapDelete (mapSet st1.statements key stmt) vk, st1.counter⟩,
      ?_, hmem3, hvnot3, rfl, ?_⟩
    · unfold insertAndEvict
      dsimp only
      rw [if_pos (by omega), heq3]
    · show (mapDelete (mapSet st1.statements key stmt) vk).length
          = cfg.maxPreparedStatements
      have hdel := length_mapDelete_of_mem (mapSet st1.statements key stmt)
        vk vv hsn2 hmem3
      omega
  · intro st1 key stmt hlt hfresh
    have hlen2 := length_mapSet_of_absent st1.statements key stmt hfresh
    unfold insertAndEvict
    dsimp only
    rw [if_neg (by omega)]

/-- C5 witness: the amended statement applied to the concrete
counterexample run, to a concrete at-cap state receiving a fresh key,
and to a concrete below-cap state. -/
theorem C5_amended_witness :
    (∃ out, runCalls cfg5 execOk 2 (initialConnectionState 2)
        [mkCall "q1", mkCall "q2", mkCall "q1", mkCall "q3", mkCall "q4"]
          = some out ∧
      out.1.statements.length ≤ 2) ∧
    (∃ vk vv st3,
      insertAndEvict 2 stOver "K3" stmtW3 = (st3, ["DEALLOCATE " ++ vv.name]) ∧
      (vk, vv) ∈ mapSet stOver.statements "K3" stmtW3 ∧
      vk ∉ (stOver.lru.set "K3" stmtW3).keys ∧
      st3.statements = mapDelete (mapSet stOver.statements "K3" stmtW3) vk ∧
      st3.statements.length = 2) ∧
    (insertAndEvict 2 stW "K2" stmtW2).2 = [] := by
  refine ⟨?_, ?_, ?_⟩
  · obtain ⟨out, hout⟩ := Option.isSome_iff_exists.mp
      (show (runCalls cfg5 execOk 2 (initialConnectionState 2)
        [mkCall "q1", mkCall "q2", mkCall "q1", mkCall "q3", mkCall "q4"]).isSome
          = true by rfl)
    exact ⟨out, hout, (C5_amended cfg5 execOk 2).1 _ out hout⟩
  · exact (C5_amended cfgW execOk 2).2.1 stOver "K3" stmtW3
      ⟨by decide, by decide, by decide, by decide, rfl⟩ (by decide) rfl
  · exact (C5_amended cfgW execOk 2).2.2 stW "K2" stmtW2 (by decide) (by decide)

/-! ## Claim C6: one physical LISTEN per topic -/

/-- C6: at every subscriber state reachable from construction,
`subscribe(t)` invokes the pool's `listen` exactly when the topic has no
consumers (its first consumer); a later consumer joins the existing
shared topic list and triggers no `listen`; and a consumer detach
invokes the stored unlisten handle exactly when that consumer is the
topic's last one, in which case exactly one unlisten invocation is
emitted. -/
theorem C6 (events : List SubEvent) (t : String) (id : Nat) (st : SubState)
    (hst : st = (subRun initSubState events).1) :
    (st.alive = true → topicsGet st.topics t = none →
      (subStep st (.subscribe t)).2 = [.poolListen t]) ∧
    (∀ ids, st.alive = true → topicsGet st.topics t = some ids →
      (subStep st (.subscribe t)).2 = [] ∧
      topicsGet (subStep st (.subscribe t)).1.topics t
        = some (ids ++ [st.nextId])) ∧
    (SubAction.unlistenInvoked t ∈ (subStep st (.detach id)).2 ↔
      ∃ c : Consumer, consumersGet st.consumers id = some c ∧
        c.finished = false ∧ c.topic = t ∧ topicsGet st.topics t = some [id]) ∧
    ((∃ c : Consumer, consumersGet st.consumers id = some c ∧
        c.finished = false ∧ c.topic = t ∧ topicsGet st.topics t = some [id]) →
      (subStep st (.detach id)).2 = [.iterFinished id, .unlistenInvoked t]) := by
  have hinv : SubInv st := by
    rw [hst]
    exact subRun_inv events initSubState
      (fun t2 ids2 h => by simp [initSubState, topicsGet] at h)
  refine ⟨?_, ?_, ?_, ?_⟩
  · intro halive hnone
    simp [subStep, subSubscribe, halive, hnone]
  · intro ids halive hsome
    constructor
    · simp [subStep, subSubscribe, halive, hsome]
    · simp only [subStep, subSubscribe, halive, hsome, Bool.not_true,
        Bool.false_eq_true, if_false]
      exact topicsGet_topicsSet_self _ _ _
  · exact (doFinally_unlisten_char st id t hinv).2
  · exact (doFinally_unlisten_char st id t hinv).1

/-- C6 witness: the theorem applied to the concrete two-consumer
scenario on topic `chat`. -/
theorem C6_witness :
    (subStep initSubState (.subscribe "chat")).2 = [.poolListen "chat"] ∧
    (subStep (subRun initSubState [.subscribe "chat"]).1 (.subscribe "chat")).2
      = [] ∧
    (subStep (subRun initSubState [.subscribe "chat"]).1 (.detach 0)).2
      = [.iterFinished 0, .unlistenInvoked "chat"] := by
  refine ⟨?_, ?_, ?_⟩
  · exact (C6 [] "chat" 0 initSubState rfl).1 rfl rfl
  · exact ((C6 [.subscribe "chat"] "chat" 0 _ rfl).2.1 [0] rfl rfl).1
  · exact (C6 [.subscribe "chat"] "chat" 0 _ rfl).2.2.2
      ⟨⟨"chat", false⟩, rfl, rfl, rfl, rfl⟩

/-! ## Claim C7: double release -/

/-- C7 counterexample: the node-postgres adapter-level pool accepts a
second `release` call — it returns normally instead of failing with a
double-release error. -/
theorem C7_counterexample :
    nodeAdapterRelease ⟨true, false⟩
        = Except.ok (⟨false, false⟩, ["pool.end"]) ∧
    nodeAdapterRelease ⟨false, false⟩
        = Except.ok (⟨false, false⟩, []) := by
  exact ⟨rfl, rfl⟩

/-- C7 (amended): pools built by `createPgPoolFromPool` fail with the
double-release error on a second `release`; the adapter-level `release`
of the node-postgres and postgres.js adapters never throws, and a second
call (the driver handle already cleared) is a no-op. -/
theorem C7_amended :
    (fromPoolRelease ⟨false⟩ = Except.ok (⟨true⟩, ["release"])) ∧
    (fromPoolRelease ⟨true⟩
        = Except.error "Release called twice on the same PgPool") ∧
    (∀ p c : Bool, ∃ out, nodeAdapterRelease ⟨p, c⟩ = Except.ok out) ∧
    (∀ q c : Bool, ∃ out, pgjsAdapterRelease ⟨q, c⟩ = Except.ok out) ∧
    (∀ c : Bool, nodeAdapterRelease ⟨false, c⟩ = Except.ok (⟨false, c⟩, [])) ∧
    (∀ c : Bool, pgjsAdapterRelease ⟨false, c⟩ = Except.ok (⟨false, c⟩, [])) := by
  refine ⟨rfl, rfl, ?_, ?_, ?_, ?_⟩
  · intro p c
    cases p <;> cases c <;> exact ⟨_, rfl⟩
  · intro q c
    cases q <;> cases c <;> exact ⟨_, rfl⟩
  · intro c
    cases c <;> rfl
  · intro c
    cases c <;> rfl

/-! ## Claim C8: global string-key table bound -/

set_option maxRecDepth 8192 in
/-- C8 counterexample: 101 string-keyed calls with distinct keys, none of
which draws the 1% cleanup, leave 101 entries in the process-global
table — the claimed 100-entry bound is exceeded. -/
theorem C8_counterexample :
    (stringStateRun []
        ((List.range 101).map fun i => (toString i, false))).length = 101 := by
  rfl

/-- C8 (amended): the cleanup pass drops exactly the oldest entry and
only when the table exceeds 100 entries, and it runs only on the 1%
random draw; hence a step whose draw hits keeps the table within 100
entries (when it was within 100), but a step whose draw misses can grow
the table beyond the bound by one entry. -/
theorem C8_amended :
    (∀ t : List String, t.length > 100 → cleanupStringStates t = t.tail) ∧
    (∀ t : List String, t.length ≤ 100 → cleanupStringStates t = t) ∧
    (∀ t : List String, ∀ k : String,
      t.length ≤ 100 → (stringStateStep t k true).length ≤ 100) ∧
    (∀ t : List String, ∀ k : String, ∀ coin : Bool,
      (stringStateStep t k coin).length ≤ t.length + 1) := by
  refine ⟨?_, ?_, ?_, ?_⟩
  · intro t h
    simp [cleanupStringStates, h]
  · intro t h
    simp [cleanupStringStates]
    omega
  · intro t k h
    show (cleanupStringStates (if t.contains k then t else t ++ [k])).length ≤ 100
    cases hc : t.contains k
    · rw [if_neg (by simp [hc])]
      unfold cleanupStringStates
      split
      · rw [List.length_tail]
        simp only [List.length_append, List.length_singleton]
        omega
      · rename_i hle
        simp only [List.length_append, List.length_singleton] at hle ⊢
        omega
    · rw [if_pos (by simp [hc])]
      unfold cleanupStringStates
      split
      · rw [List.length_tail]
        omega
      · omega
  · intro t k coin
    cases coin
    · show ((if t.contains k then t else t ++ [k])).length ≤ t.length + 1
      split
      · omega
      · simp
    · show (cleanupStringStates (if t.contains k then t else t ++ [k])).length ≤ t.length + 1
      cases hc : t.contains k
      · rw [if_neg (by simp [hc])]
        unfold cleanupStringStates
        split
        · rw [List.length_tail]
          simp only [List.length_append, List.length_singleton]
          omega
        · simp only [List.length_append, List.length_singleton]
          omega
      · rw [if_pos (by simp [hc])]
        unfold cleanupStringStates
        split
        · rw [List.length_tail]
          omega
        · omega

/-- C8 witness: the amended statement applied to a concrete oversized and
a concrete small table. -/
theorem C8_amended_witness :
    cleanupStringStates (List.replicate 101 "x")
        = (List.replicate 101 "x").tail ∧
    cleanupStringStates ["x"] = ["x"] ∧
    (stringStateStep ["x"] "y" true).length ≤ 100 := by
  refine ⟨C8_amended.1 _ ?_, C8_amended.2.1 _ ?_, C8_amended.2.2.1 _ _ ?_⟩
  · simp
  · simp
  · simp

/-! ## Claim C9: null settings are omitted -/

/-- A settings map produces no entries exactly when every value is
null. -/
theorem settingsEntries_eq_nil_iff (s : List (String × Option String)) :
    settingsEntries s = [] ↔ ∀ kv ∈ s, kv.2 = none := by
  constructor
  · intro h kv hkv
    cases hv : kv.2 with
    | none => rfl
    | some v =>
        exfalso
        have hmem : (kv.1, v) ∈ settingsEntries s := by
          refine List.mem_filterMap.mpr ⟨kv, hkv, ?_⟩
          simp [hv]
        rw [h] at hmem
        exact (List.not_mem_nil _ hmem)
  · intro h
    apply List.filterMap_eq_nil_iff.mpr
    intro kv hkv
    simp [h kv hkv]

/-- C9: the settings payload holds exactly the keys bound to non-null
values; a settings map whose values are all null (or an empty one) makes
every backend issue no `set_config` query at all; and any `set_config`
payload of the pooled-TCP and tagged-template envelopes is exactly the
non-null entry list. -/
theorem C9 {e a : Type} :
    (∀ s : List (String × Option String), ∀ k v,
      ((k, v) ∈ settingsEntries s ↔ (k, some v) ∈ s)) ∧
    (∀ s, ∀ pre : Bool, ∀ cb : Nat → Except e a, ∀ rb : Option e,
      settingsEntries s = [] →
        countSetConfig (npWithPgClient (some s) pre cb rb).trace = 0) ∧
    (∀ s, ∀ cb : Except e a, settingsEntries s = [] →
        countSetConfig (pgjsWithPgClient (some s) cb).trace = 0) ∧
    (∀ s, ∀ orig : String → Option String, ∀ cb : Except e a,
      settingsEntries s = [] →
        countSetConfig (pgliteWithPgClient (some s) orig cb).trace = 0) ∧
    (∀ s, ∀ pre : Bool, ∀ cb : Nat → Except e a, ∀ rb : Option e, ∀ txt ents,
      PgAction.queryJson txt ents ∈ (npWithPgClient (some s) pre cb rb).trace →
        ents = settingsEntries s) ∧
    (∀ s, ∀ cb : Except e a, ∀ txt ents,
      PgAction.queryJson txt ents ∈ (pgjsWithPgClient (some s) cb).trace →
        ents = settingsEntries s) := by
  refine ⟨?_, ?_, ?_, ?_, ?_, ?_⟩
  · intro s k v
    constructor
    · intro h
      rcases List.mem_filterMap.mp h with ⟨⟨k2, ov⟩, hmem, hf⟩
      cases ov with
      | none => simp at hf
      | some v2 =>
          simp at hf
          rcases hf with ⟨hk, hv⟩
          rw [← hk, ← hv]
          exact hmem
    · intro h
      exact List.mem_filterMap.mpr ⟨(k, some v), h, rfl⟩
  · intro s pre cb rb h
    simp [npWithPgClient, h, countSetConfig]
  · intro s cb h
    by_cases hs : s.length > 0 <;>
      simp [pgjsWithPgClient, hs, h, countSetConfig, isSetConfigAct]
  · intro s orig cb h
    have hnull := (settingsEntries_eq_nil_iff s).mp h
    have hfil : (s.filter fun kv => kv.2.isSome) = [] := by
      apply List.filter_eq_nil_iff.mpr
      intro kv hkv
      simp [hnull kv hkv]
    by_cases hs : s.length > 0 <;>
      simp [pgliteWithPgClient, hs, h, countSetConfig, pgliteProbeActions,
        pgliteApplyActions, pgliteOriginalSettings, pgliteRestoreActions, hfil]
  · intro s pre cb rb txt ents hmem
    by_cases h : 0 < (settingsEntries s).length
    · cases hcb : cb 1 with
      | ok a2 =>
          simp [npWithPgClient, h, hcb] at hmem
          exact hmem.2
      | error e2 =>
          cases rb <;> simp [npWithPgClient, h, hcb] at hmem <;> exact hmem.2
    · simp [npWithPgClient, h] at hmem
  · intro s cb txt ents hmem
    by_cases hs : 0 < s.length
    · by_cases h : 0 < (settingsEntries s).length
      · simp [pgjsWithPgClient, hs, h] at hmem
        exact hmem.2
      · simp [pgjsWithPgClient, hs, h] at hmem
    · simp [pgjsWithPgClient, hs] at hmem

/-- C9 witness: the theorem applied to a concrete all-null settings map
(no `set_config` issued anywhere) and a concrete mixed map (payload
membership). -/
theorem C9_witness :
    countSetConfig (npWithPgClient (ε := Nat) (α := Nat)
        (some [("a", none), ("b", none)]) false (fun _ => Except.ok 0) none).trace
      = 0 ∧
    countSetConfig (pgjsWithPgClient (ε := Nat) (α := Nat)
        (some [("a", none), ("b", none)]) (Except.ok 0)).trace = 0 ∧
    countSetConfig (pgliteWithPgClient (ε := Nat) (α := Nat)
        (some [("a", none), ("b", none)]) (fun _ => none) (Except.ok 0)).trace
      = 0 ∧
    (("a", "x") ∈ settingsEntries [("a", some "x"), ("b", none)] ↔
      ("a", some "x") ∈ [("a", some "x"), ("b", none)]) := by
  have h := C9 (e := Nat) (a := Nat)
  exact ⟨h.2.1 _ false _ none rfl, h.2.2.1 _ _ rfl,
    h.2.2.2.1 _ _ _ rfl, h.1 _ "a" "x"⟩

/-! ## Claim C10: subscriber release is idempotent -/

/-- C10: a second `release` on a `PgSubscriber` is a no-op — it returns
normally, leaving the state untouched and performing no iterator returns
and no unlisten invocations — whereas the repository's double-release
error belongs to the `createPgPoolFromPool` pool, whose second `release`
throws. -/
theorem C10 :
    (∀ st : SubState, st.alive = false → subRelease st = (st, [])) ∧
    fromPoolRelease ⟨true⟩
      = Except.error "Release called twice on the same PgPool" := by
  constructor
  · intro st h
    unfold subRelease
    rw [if_neg (by simp [h])]
  · rfl

/-- C10 witness: the theorem applied to a concrete already-released
subscriber state. -/
theorem C10_witness :
    subRelease ⟨false, [(0, ⟨"chat", false⟩)], [("chat", [0])], ["chat"], 1⟩
      = (⟨false, [(0, ⟨"chat", false⟩)], [("chat", [0])], ["chat"], 1⟩, []) := by
  exact C10.1 _ rfl

end PgAdapters
